import Mathlib

/-!
Verification of the transit-route finder (`Assessment2.py`).

The program builds a graph of line-qualified station nodes from tabular
(Station, Line) rows and answers two queries: fewest-stops (BFS) and
least-time (Dijkstra with a lazy priority queue).  This file is a shallow
embedding of that program: Python dicts become insertion-ordered
association lists, the `random.randint(2, 8)` draws become an injectable
stream `ws : Nat -> Nat` whose k-th draw is read as `2 + ws k % 7`
(exactly the integers 2..8), `float('inf')` becomes `none : Option Nat`,
and the `heapq` priority queue becomes a multiset of `(Nat, String)`
entries popped at the lexicographic minimum (Python's tuple order).
-/

/-! ### String order (Python string comparison, used by pandas sorts) -/

/-- Lexicographic less-or-equal on char lists, by code point: the order
Python uses to compare strings (`sort_values`, tuple comparison). -/
def clLe : List Char → List Char → Bool
  | [], _ => true
  | _ :: _, [] => false
  | a :: as, b :: bs =>
    if a.toNat < b.toNat then true
    else if b.toNat < a.toNat then false
    else clLe as bs

/-- String less-or-equal: Python `<=` on strings. -/
def strLe (a b : String) : Bool := clLe a.data b.data

theorem clLe_total (x y : List Char) : clLe x y = true ∨ clLe y x = true := by
  induction x generalizing y with
  | nil => left; rfl
  | cons a as ih =>
    cases y with
    | nil => right; rfl
    | cons b bs =>
      by_cases hab : a.toNat < b.toNat
      · left; simp [clLe, hab]
      · by_cases hba : b.toNat < a.toNat
        · right; simp [clLe, hba]
        · rcases ih bs with h | h
          · left; simp [clLe, hab, hba, h]
          · right; simp [clLe, hab, hba, h]

theorem charToNat_injective {a b : Char} (h : a.toNat = b.toNat) : a = b := by
  have hv : a.val = b.val := UInt32.ext h
  cases a; cases b; simp_all

theorem clLe_trans {x y z : List Char} (hxy : clLe x y = true) (hyz : clLe y z = true) :
    clLe x z = true := by
  induction x generalizing y z with
  | nil => rfl
  | cons a as ih =>
    cases y with
    | nil => simp [clLe] at hxy
    | cons b bs =>
      cases z with
      | nil => simp [clLe] at hyz
      | cons c cs =>
        simp only [clLe] at hxy hyz ⊢
        by_cases hab : a.toNat < b.toNat
        · by_cases hbc : b.toNat < c.toNat
          · simp [Nat.lt_trans hab hbc]
          · by_cases hcb : c.toNat < b.toNat
            · simp [hbc, hcb] at hyz
            · have : b.toNat = c.toNat := Nat.le_antisymm (Nat.le_of_not_lt hcb) (Nat.le_of_not_lt hbc)
              simp [this ▸ hab]
        · by_cases hba : b.toNat < a.toNat
          · simp [hab, hba] at hxy
          · have hA : a.toNat = b.toNat := Nat.le_antisymm (Nat.le_of_not_lt hba) (Nat.le_of_not_lt hab)
            by_cases hbc : b.toNat < c.toNat
            · simp [hA ▸ hbc]
            · by_cases hcb : c.toNat < b.toNat
              · simp [hbc, hcb] at hyz
              · have hB : b.toNat = c.toNat := Nat.le_antisymm (Nat.le_of_not_lt hcb) (Nat.le_of_not_lt hbc)
                simp only [hab, hba, if_neg, if_false] at hxy
                simp only [hbc, hcb, if_neg, if_false] at hyz
                have hac : ¬ a.toNat < c.toNat := by omega
                have hca : ¬ c.toNat < a.toNat := by omega
                simp [hac, hca, ih hxy hyz]

theorem clLe_antisymm {x y : List Char} (hxy : clLe x y = true) (hyx : clLe y x = true) :
    x = y := by
  induction x generalizing y with
  | nil =>
    cases y with
    | nil => rfl
    | cons b bs => simp [clLe] at hyx
  | cons a as ih =>
    cases y with
    | nil => simp [clLe] at hxy
    | cons b bs =>
      simp only [clLe] at hxy hyx
      by_cases hab : a.toNat < b.toNat
      · have hba : ¬ b.toNat < a.toNat := by omega
        simp [hab, hba] at hyx
      · by_cases hba : b.toNat < a.toNat
        · simp [hab, hba] at hxy
        · have hA : a = b := charToNat_injective
            (Nat.le_antisymm (Nat.le_of_not_lt hba) (Nat.le_of_not_lt hab))
          simp only [hab, hba, if_neg, if_false] at hxy hyx
          rw [hA, ih hxy hyx]

theorem strLe_total (a b : String) : strLe a b = true ∨ strLe b a = true :=
  clLe_total a.data b.data

theorem strLe_trans {a b c : String} (h1 : strLe a b = true) (h2 : strLe b c = true) :
    strLe a c = true := clLe_trans h1 h2

theorem strLe_antisymm {a b : String} (h1 : strLe a b = true) (h2 : strLe b a = true) :
    a = b := by
  have := clLe_antisymm h1 h2
  cases a; cases b; simp_all

theorem strLe_refl (a : String) : strLe a a = true := by
  rcases strLe_total a a with h | h <;> exact h

/-! ### Stable insertion sort (model of pandas ascending sorts) -/

/-- Insert an element into a sorted list, before the first element it is
le-related to. -/
def insSorted (le : String → String → Bool) (a : String) : List String → List String
  | [] => [a]
  | b :: l => if le a b then a :: b :: l else b :: insSorted le a l

/-- Insertion sort; with a total transitive `le` it sorts ascending. -/
def sortByLe (le : String → String → Bool) : List String → List String
  | [] => []
  | a :: l => insSorted le a (sortByLe le l)

theorem insSorted_perm (le : String → String → Bool) (a : String) (l : List String) :
    List.Perm (insSorted le a l) (a :: l) := by
  induction l with
  | nil => rfl
  | cons b t ih =>
    by_cases h : le a b = true
    · simp [insSorted, h]
    · simp only [insSorted, h, Bool.false_eq_true, if_false]
      exact List.Perm.trans (List.Perm.cons b ih) (List.Perm.swap a b t)

theorem sortByLe_perm (le : String → String → Bool) (l : List String) :
    List.Perm (sortByLe le l) l := by
  induction l with
  | nil => rfl
  | cons a t ih =>
    exact List.Perm.trans (insSorted_perm le a (sortByLe le t)) (List.Perm.cons a ih)

/-- Adjacent-sortedness: each element is le the next one. -/
def ChainLe (le : String → String → Bool) (l : List String) : Prop :=
  List.Chain' (fun a b => le a b = true) l

theorem insSorted_chain (le : String → String → Bool)
    (htot : ∀ x y, le x y = true ∨ le y x = true)
    (a : String) {l : List String} (hl : ChainLe le l) :
    ChainLe le (insSorted le a l) := by
  induction l with
  | nil => simp [insSorted, ChainLe]
  | cons b t ih =>
    by_cases h : le a b = true
    · simpa [insSorted, h, ChainLe] using hl
    · have hba : le b a = true := by rcases htot a b with h' | h' <;> simp_all
      simp only [insSorted, h, Bool.false_eq_true, if_false]
      have ht : ChainLe le t := (List.chain'_cons'.mp hl).2
      have hrec := ih ht
      rw [ChainLe, List.chain'_cons']
      refine ⟨?_, hrec⟩
      intro y hy
      cases t with
      | nil =>
        simp only [insSorted, List.head?_cons, Option.mem_def, Option.some.injEq] at hy
        rw [← hy]; exact hba
      | cons c u =>
        by_cases hac : le a c = true
        · simp only [insSorted, hac, if_true, List.head?_cons, Option.mem_def,
            Option.some.injEq] at hy
          rw [← hy]; exact hba
        · simp only [insSorted, hac, Bool.false_eq_true, if_false, List.head?_cons,
            Option.mem_def, Option.some.injEq] at hy
          have hbc : le b c = true := (List.chain'_cons.mp hl).1
          simp [← hy, hbc]

theorem sortByLe_chain (le : String → String → Bool)
    (htot : ∀ x y, le x y = true ∨ le y x = true) (l : List String) :
    ChainLe le (sortByLe le l) := by
  induction l with
  | nil => simp [sortByLe, ChainLe]
  | cons a t ih => exact insSorted_chain le htot a ih

/-! ### Index-ordered pairs (the i < j double loop of the transfer pass) -/

/-- All pairs (l[i], l[j]) with i < j, in the order the double loop visits
them. -/
def upairs : List String → List (String × String)
  | [] => []
  | a :: l => l.map (fun b => (a, b)) ++ upairs l

theorem upairs_len (l : List String) :
    2 * (upairs l).length = l.length * (l.length - 1) := by
  induction l with
  | nil => rfl
  | cons a t ih =>
    have hexp : (t.length + 1) * (t.length + 1 - 1) =
        t.length * (t.length - 1) + 2 * t.length := by
      cases t with
      | nil => rfl
      | cons b u =>
        simp only [List.length_cons, Nat.add_sub_cancel]
        ring
    simp only [upairs, List.length_append, List.length_map, List.length_cons]
    omega

theorem upairs_mem_of_count {l : List String} {a : String}
    (h : 2 ≤ l.count a) : (a, a) ∈ upairs l := by
  induction l with
  | nil => simp at h
  | cons x t ih =>
    by_cases hx : x = a
    · subst hx
      have : 1 ≤ t.count x := by
        have := List.count_cons_self x t
        omega
      have hmem : x ∈ t := List.count_pos_iff.mp (by omega)
      exact List.mem_append_left _ (List.mem_map.mpr ⟨x, hmem, rfl⟩)
    · have : 2 ≤ t.count a := by
        have := List.count_cons a x t
        simp [hx] at this
        omega
      exact List.mem_append_right _ (ih this)

theorem upairs_ne_of_nodup {l : List String} (hnd : l.Nodup)
    {p : String × String} (hp : p ∈ upairs l) : p.1 ≠ p.2 := by
  induction l with
  | nil => simp [upairs] at hp
  | cons a t ih =>
    simp only [upairs, List.mem_append, List.mem_map] at hp
    rcases hp with ⟨b, hb, rfl⟩ | hp
    · intro h
      change a = b at h
      exact (List.nodup_cons.mp hnd).1 (by rw [h]; exact hb)
    · exact ih (List.nodup_cons.mp hnd).2 hp

theorem upairs_sub {l : List String} {p : String × String} (hp : p ∈ upairs l) :
    p.1 ∈ l ∧ p.2 ∈ l := by
  induction l with
  | nil => simp [upairs] at hp
  | cons a t ih =>
    simp only [upairs, List.mem_append, List.mem_map] at hp
    rcases hp with ⟨b, hb, rfl⟩ | hp
    · exact ⟨List.mem_cons_self a t, List.mem_cons_of_mem a hb⟩
    · exact ⟨List.mem_cons_of_mem a (ih hp).1, List.mem_cons_of_mem a (ih hp).2⟩

/-! ### Insertion-ordered dictionaries (Python dict) -/

/-- Set a key: overwrite in place if present (Python keeps the original
position), append otherwise. -/
def dset {α : Type} : List (String × α) → String → α → List (String × α)
  | [], k, v => [(k, v)]
  | (k', v') :: d, k, v => if k' = k then (k, v) :: d else (k', v') :: dset d k v

/-- Look a key up (first match). -/
def dget {α : Type} : List (String × α) → String → Option α
  | [], _ => none
  | (k', v) :: d, k => if k' = k then some v else dget d k

/-- Append an element to the list stored at a key.  Python raises KeyError
for a missing key; `build_graph` only ever appends at registered station
ids, where this model agrees, and a missing key is left unchanged. -/
def dappend {α : Type} : List (String × List α) → String → α → List (String × List α)
  | [], _, _ => []
  | (k', l) :: d, k, v => if k' = k then (k, l ++ [v]) :: d else (k', l) :: dappend d k v

theorem dset_keys {α : Type} (d : List (String × α)) (k : String) (v : α) :
    (dset d k v).map (·.1) =
      if k ∈ d.map (·.1) then d.map (·.1) else d.map (·.1) ++ [k] := by
  induction d with
  | nil => simp [dset]
  | cons kv t ih =>
    obtain ⟨k', v'⟩ := kv
    by_cases h : k' = k
    · subst h; simp [dset]
    · simp only [dset, h, if_false, List.map_cons, List.mem_cons]
      rw [ih]
      by_cases hm : k ∈ t.map (·.1)
      · simp [hm]
      · have : ¬ (k = k' ∨ k ∈ t.map (·.1)) := by
          intro hc; rcases hc with hc | hc
          · exact h hc.symm
          · exact hm hc
        simp [hm, this, Ne.symm h]

theorem dset_keys_nodup {α : Type} {d : List (String × α)} (h : (d.map (·.1)).Nodup)
    (k : String) (v : α) : ((dset d k v).map (·.1)).Nodup := by
  rw [dset_keys]
  by_cases hm : k ∈ d.map (·.1)
  · simpa [hm]
  · simp only [hm, if_false]
    rw [List.nodup_append]
    refine ⟨h, List.nodup_singleton k, ?_⟩
    intro a ha hak
    simp only [List.mem_singleton] at hak
    subst hak
    exact hm ha

theorem dget_dset_self {α : Type} (d : List (String × α)) (k : String) (v : α) :
    dget (dset d k v) k = some v := by
  induction d with
  | nil => simp [dset, dget]
  | cons kv t ih =>
    obtain ⟨k', v'⟩ := kv
    by_cases h : k' = k
    · subst h; simp [dset, dget]
    · simp [dset, dget, h, ih]

theorem dget_dset_other {α : Type} (d : List (String × α)) {k x : String} (v : α)
    (hx : x ≠ k) : dget (dset d k v) x = dget d x := by
  induction d with
  | nil => simp [dset, dget, Ne.symm hx]
  | cons kv t ih =>
    obtain ⟨k', v'⟩ := kv
    by_cases h : k' = k
    · subst h; simp [dset, dget, Ne.symm hx]
    · by_cases h2 : k' = x
      · subst h2; simp [dset, dget, h]
      · simp [dset, dget, h, h2, ih]

theorem dappend_keys {α : Type} (d : List (String × List α)) (k : String) (v : α) :
    (dappend d k v).map (·.1) = d.map (·.1) := by
  induction d with
  | nil => rfl
  | cons kv t ih =>
    obtain ⟨k', l⟩ := kv
    by_cases h : k' = k
    · subst h; simp [dappend]
    · simp [dappend, h, ih]

theorem dget_dappend_of_mem {α : Type} {d : List (String × List α)} {k : String}
    (hnd : (d.map (·.1)).Nodup) (hk : k ∈ d.map (·.1)) (v : α) :
    dget (dappend d k v) k = some ((dget d k).getD [] ++ [v]) := by
  induction d with
  | nil => simp at hk
  | cons kv t ih =>
    obtain ⟨k', l⟩ := kv
    by_cases h : k' = k
    · subst h; simp [dappend, dget]
    · simp only [List.map_cons, List.mem_cons] at hk
      rcases hk with hk | hk
      · exact absurd hk.symm h
      · simp only [List.map_cons, List.nodup_cons] at hnd
        simp [dappend, dget, h, ih hnd.2 hk]

theorem dget_dappend_other {α : Type} (d : List (String × List α)) {k x : String}
    (v : α) (hx : x ≠ k) : dget (dappend d k v) x = dget d x := by
  induction d with
  | nil => rfl
  | cons kv t ih =>
    obtain ⟨k', l⟩ := kv
    by_cases h : k' = k
    · subst h; simp [dappend, dget, Ne.symm hx]
    · by_cases h2 : k' = x
      · subst h2; simp [dappend, dget, h]
      · simp [dappend, dget, h, h2, ih]

/-! ### Data model: Station and Graph -/

/-- A station row: a name and a line (`Station.__init__`). -/
structure Station where
  name : String
  line : String
deriving DecidableEq, Repr

/-- `Station.id`: the node identifier string `"{name} ({line})"`. -/
def Station.id (st : Station) : String := st.name ++ " (" ++ st.line ++ ")"

/-- The graph store: `nodes` maps id -> Station, `edges` maps id -> list of
(neighbor id, travel time).  Both are insertion-ordered dicts. -/
structure Graph where
  nodes : List (String × Station)
  edges : List (String × List (String × Nat))
deriving Repr

/-- `Graph.add_station`: register the node and reset its edge list. -/
def Graph.add_station (g : Graph) (st : Station) : Graph :=
  { nodes := dset g.nodes st.id st, edges := dset g.edges st.id [] }

/-- `Graph.add_connection`: append the edge to both endpoint lists. -/
def Graph.add_connection (g : Graph) (from_id to_id : String) (time : Nat) : Graph :=
  { g with edges := dappend (dappend g.edges from_id (to_id, time)) to_id (from_id, time) }

/-- The node identifiers, in dict (insertion) order. -/
def nodeKeys (g : Graph) : List String := g.nodes.map (·.1)

/-- The adjacency list of an id (empty for an unknown id, which
`build_graph` and closed-graph queries never produce). -/
def edgesOf (g : Graph) (id : String) : List (String × Nat) :=
  (dget g.edges id).getD []

/-! ### build_graph -/

/-- The id string of a (name, line) row. -/
def stationId (n l : String) : String := n ++ " (" ++ l ++ ")"

/-- The station names of a line's rows, in row order (`df.groupby("Line")`
group contents). -/
def rowsOfLine (rows : List (String × String)) (l : String) : List String :=
  (rows.filter (fun r => decide (r.2 = l))).map (·.1)

/-- A line's stations sorted ascending by name
(`group.sort_values("Station")`). -/
def sortedStations (rows : List (String × String)) (l : String) : List String :=
  sortByLe strLe (rowsOfLine rows l)

/-- Consecutive pairs of the sorted stations of a line. -/
def linePairs (rows : List (String × String)) (l : String) : List (String × String) :=
  (sortedStations rows l).zip (sortedStations rows l).tail

/-- The line keys, each once, in ascending order (pandas `groupby` sorts
group keys). -/
def linesOrder (rows : List (String × String)) : List String :=
  sortByLe strLe (rows.map (·.2)).dedup

/-- The intra-line pass's connection pairs tagged with their line, in the
order the two nested loops create them. -/
def intraTagged (rows : List (String × String)) : List (String × String × String) :=
  ((linesOrder rows).map
    (fun l => (linePairs rows l).map (fun ab => (l, ab.1, ab.2)))).flatten

/-- Attach a travel time drawn from the stream to each pair: the k-th
`random.randint(2, 8)` draw is modelled as `2 + ws k % 7`, which ranges
over exactly 2..8. -/
def attachW (ws : Nat → Nat) : Nat → List (String × String × String) → List (String × String × Nat)
  | _, [] => []
  | k, (l, a, b) :: rest => (stationId a l, stationId b l, 2 + ws k % 7) :: attachW ws (k + 1) rest

/-- All intra-line connections (from id, to id, time), in creation order. -/
def intraConnections (rows : List (String × String)) (ws : Nat → Nat) :
    List (String × String × Nat) :=
  attachW ws 0 (intraTagged rows)

/-- The station-name keys, each once, ascending (`df.groupby("Station")`). -/
def stationNames (rows : List (String × String)) : List String :=
  sortByLe strLe (rows.map (·.1)).dedup

/-- The lines of a station's rows, in row order. -/
def linesOfStation (rows : List (String × String)) (n : String) : List String :=
  (rows.filter (fun r => decide (r.1 = n))).map (·.2)

/-- The transfer pass's pairs tagged with their station name. -/
def transferTagged (rows : List (String × String)) : List (String × String × String) :=
  ((stationNames rows).map
    (fun n => (upairs (linesOfStation rows n)).map (fun p => (n, p.1, p.2)))).flatten

/-- All transfer connections: weight 5 between the two line-qualified ids. -/
def transferConnections (rows : List (String × String)) : List (String × String × Nat) :=
  (transferTagged rows).map (fun t => (stationId t.1 t.2.1, stationId t.1 t.2.2, 5))

/-- Every `add_connection` call of `build_graph`, in order: the intra-line
pass then the transfer pass. -/
def allConnections (rows : List (String × String)) (ws : Nat → Nat) :
    List (String × String × Nat) :=
  intraConnections rows ws ++ transferConnections rows

/-- `build_graph`: register every row as a station, then add the intra-line
and transfer connections. -/
def build_graph (rows : List (String × String)) (ws : Nat → Nat) : Graph :=
  let g0 := rows.foldl (fun g r => g.add_station ⟨r.1, r.2⟩) ⟨[], []⟩
  (allConnections rows ws).foldl (fun g c => g.add_connection c.1 c.2.1 c.2.2) g0

/-! ### The two path finders -/

/-- Python `sid.startswith(name)`: the query is a code-point prefix of the
identifier string. -/
def startswith (pre s : String) : Bool := pre.data.isPrefixOf s.data

/-- Candidate resolution shared by both finders: all node ids whose
identifier string begins with the supplied name, in dict order. -/
def candidate_ids (g : Graph) (name : String) : List String :=
  (nodeKeys g).filter (fun sid => startswith name sid)

/-- Follow parent pointers from a node, nearest-first, stopping at a root
(the Python `while current:` reconstruction loop before the reversal). -/
def chainToRoot (parent : String → Option String) : Nat → String → List String
  | 0, _ => []
  | f + 1, cur =>
    cur :: (match parent cur with
            | none => []
            | some p => chainToRoot parent f p)

/-- The BFS inner for-loop: visit and enqueue each unvisited neighbor. -/
def bfsExpand (current : String) :
    List String × (String → Option String) × List String →
    List (String × Nat) → List String × (String → Option String) × List String
  | st, [] => st
  | (visited, parent, queue), (nb, _) :: es =>
    if nb ∈ visited then bfsExpand current (visited, parent, queue) es
    else bfsExpand current
      (visited ++ [nb], fun x => if x = nb then some current else parent x, queue ++ [nb]) es

/-- The BFS while-loop.  Outer `none` means the fuel ran out (shown
unreachable for the fuel `find_shortest_path` passes); `some none` is the
Python `return None` (no route); `some (some p)` returns the path. -/
def bfsLoop (g : Graph) (end_ids : List String) :
    Nat → List String → (String → Option String) → List String →
    Option (Option (List String))
  | 0, _, _, _ => none
  | fuel + 1, visited, parent, queue =>
    match queue with
    | [] => some none
    | current :: rest =>
      if current ∈ end_ids then
        some (some ((chainToRoot parent (visited.length + 1) current).reverse))
      else
        let st := bfsExpand current (visited, parent, rest) (edgesOf g current)
        bfsLoop g end_ids fuel st.1 st.2.1 st.2.2

/-- Ids that can ever enter the BFS queue: the node keys and every
adjacency target. -/
def bfsPool (g : Graph) : List String :=
  (nodeKeys g ++ (g.edges.map (fun kv => kv.2.map (·.1))).flatten).dedup

/-- Fuel that the BFS loop is proved never to exhaust. -/
def bfsFuel (g : Graph) (seeds : List String) : Nat :=
  seeds.length + (bfsPool g).length + 1

/-- `find_shortest_path`: multi-source BFS over the candidate ids;
`none` is the Python `return None`. -/
def find_shortest_path (g : Graph) (start_name end_name : String) :
    Option (List String) :=
  let start_ids := candidate_ids g start_name
  let end_ids := candidate_ids g end_name
  (bfsLoop g end_ids (bfsFuel g start_ids) start_ids (fun _ => none) start_ids).getD none

/-- Lexicographic order on heap entries: Python tuple comparison
`(dist, sid)`. -/
def pqLe (a b : Nat × String) : Bool :=
  if a.1 < b.1 then true
  else if b.1 < a.1 then false
  else strLe a.2 b.2

/-- Pop the minimum entry of the heap (heapq pops the least tuple; among
the distinct entries the run produces the minimum is unique). -/
def popMin : List (Nat × String) → Option ((Nat × String) × List (Nat × String))
  | [] => none
  | e :: rest =>
    match popMin rest with
    | none => some (e, [])
    | some (m, rest') => if pqLe e m then some (e, rest) else some (m, e :: rest')

/-- `new_dist < distances[neighbor]` with `none` as infinity. -/
def ltInf (n : Nat) : Option Nat → Bool
  | none => true
  | some m => n < m

/-- The Dijkstra relaxation for-loop over the popped node's edges. -/
def dijRelax (k : Nat) (current : String) :
    (String → Option Nat) × (String → Option String) × List (Nat × String) →
    List (String × Nat) →
    (String → Option Nat) × (String → Option String) × List (Nat × String)
  | st, [] => st
  | (dist, prev, queue), (nb, t) :: es =>
    if ltInf (k + t) (dist nb) then
      dijRelax k current
        ((fun x => if x = nb then some (k + t) else dist x),
         (fun x => if x = nb then some current else prev x),
         queue ++ [(k + t, nb)]) es
    else dijRelax k current (dist, prev, queue) es

/-- The Dijkstra while-loop.  Outer `none`: fuel ran out (proved
unreachable); `some none`: the Python `return None, float('inf')`;
`some (some (p, c))`: a path and its total travel time. -/
def dijLoop (g : Graph) (end_ids : List String) :
    Nat → (String → Option Nat) → (String → Option String) → List (Nat × String) →
    Option (Option (List String × Nat))
  | 0, _, _, _ => none
  | fuel + 1, dist, prev, queue =>
    match popMin queue with
    | none => some none
    | some ((k, current), rest) =>
      if current ∈ end_ids then
        some (some ((chainToRoot prev ((nodeKeys g).length + 1) current).reverse, k))
      else
        let st := dijRelax k current (dist, prev, rest) (edgesOf g current)
        dijLoop g end_ids fuel st.1 st.2.1 st.2.2

/-- Fuel that the Dijkstra loop is proved never to exhaust. -/
def dijFuel (g : Graph) (seeds : List String) : Nat :=
  seeds.length + (((nodeKeys g).dedup).map (fun u => 1 + (edgesOf g u).length)).sum + 1

/-- `find_fastest_path`: multi-source lazy Dijkstra; `none` stands for the
Python `(None, float('inf'))` no-route return. -/
def find_fastest_path (g : Graph) (start_name end_name : String) :
    Option (List String × Nat) :=
  let start_ids := candidate_ids g start_name
  let end_ids := candidate_ids g end_name
  (dijLoop g end_ids (dijFuel g start_ids)
    (fun v => if v ∈ start_ids then some 0 else none)
    (fun _ => none)
    (start_ids.map (fun s => (0, s)))).getD none

/-! ### Paths in the graph -/

/-- A walk: a nonempty node sequence whose consecutive nodes are joined by
an edge of the graph. -/
def Walk (g : Graph) (p : List String) : Prop :=
  p ≠ [] ∧ List.Chain' (fun a b => ∃ t, (b, t) ∈ edgesOf g a) p

/-- A walk together with a total cost realized by some choice of
connecting edges. -/
inductive CWalk (g : Graph) : List String → Nat → Prop
  | single (v : String) : CWalk g [v] 0
  | cons {u v : String} {p : List String} {t c : Nat} :
      (v, t) ∈ edgesOf g u → CWalk g (v :: p) c → CWalk g (u :: v :: p) (t + c)

/-- A walk from a member of S to v. -/
def WalkFromTo (g : Graph) (S : List String) (v : String) (p : List String) : Prop :=
  Walk g p ∧ (∃ s ∈ S, p.head? = some s) ∧ p.getLast? = some v

/-! ### Generic list lemmas -/

theorem chain'_zip_tail {α : Type} {R : α → α → Prop} {l : List α}
    (h : List.Chain' R l) {a b : α} (hab : (a, b) ∈ l.zip l.tail) : R a b := by
  induction l with
  | nil => simp at hab
  | cons x t ih =>
    cases t with
    | nil => simp at hab
    | cons y u =>
      simp only [List.tail_cons, List.zip_cons_cons, List.mem_cons] at hab
      rcases hab with hab | hab
      · obtain ⟨h1, h2⟩ := Prod.mk.injEq .. ▸ hab
        cases h1; cases h2
        exact (List.chain'_cons.mp h).1
      · exact ih (List.chain'_cons.mp h).2 (by simpa using hab)

theorem nodup_consec_ne {α : Type} {l : List α} (hnd : l.Nodup)
    {a b : α} (hab : (a, b) ∈ l.zip l.tail) : a ≠ b := by
  have hch : List.Chain' (fun x y => x ≠ y) l := List.Pairwise.chain' hnd
  exact chain'_zip_tail hch hab

theorem chainLe_head_le {le : String → String → Bool}
    (htr : ∀ {x y z}, le x y = true → le y z = true → le x z = true)
    {b : String} {t : List String} (h : ChainLe le (b :: t)) {x : String}
    (hx : x ∈ t) : le b x = true := by
  induction t generalizing b with
  | nil => simp at hx
  | cons c u ih =>
    have h1 : le b c = true := (List.chain'_cons.mp h).1
    rcases List.mem_cons.mp hx with rfl | hx
    · exact h1
    · exact htr h1 (ih (List.chain'_cons.mp h).2 hx)

theorem chainLe_dup_adjacent {s : List String} (hs : ChainLe strLe s)
    {n : String} (h : 2 ≤ s.count n) : (n, n) ∈ s.zip s.tail := by
  induction s with
  | nil => simp at h
  | cons a t ih =>
    by_cases ha : a = n
    · subst ha
      have h1 : 1 ≤ t.count a := by
        have := List.count_cons_self a t
        omega
      have hmem : a ∈ t := List.count_pos_iff.mp (by omega)
      cases t with
      | nil => simp at hmem
      | cons b u =>
        by_cases hb : b = a
        · subst hb
          simp [List.zip_cons_cons]
        · have h2 : strLe a b = true := (List.chain'_cons.mp hs).1
          have hbu : a ∈ u := by
            rcases List.mem_cons.mp hmem with h' | h'
            · exact absurd h'.symm hb
            · exact h'
          have h3 : strLe b a = true :=
            @chainLe_head_le strLe (fun hx hy => strLe_trans hx hy) b u
              (List.chain'_cons.mp hs).2 a hbu
          exact absurd (strLe_antisymm h3 h2) hb
    · have h2 : 2 ≤ t.count n := by
        have := List.count_cons n a t
        simp [ha] at this
        omega
      have ht : ChainLe strLe t := List.Chain'.tail hs
      have hmem := ih ht h2
      cases t with
      | nil => simp at h2
      | cons b u =>
        simp only [List.tail_cons, List.zip_cons_cons, List.mem_cons]
        right
        simpa using hmem

/-! ### Lemmas about the connection lists of build_graph -/

theorem attachW_src {ws : Nat → Nat} {tags : List (String × String × String)}
    {k : Nat} {tg : String × String × String} (h : tg ∈ tags) :
    ∃ w, 2 ≤ w ∧ w ≤ 8 ∧
      (stationId tg.2.1 tg.1, stationId tg.2.2 tg.1, w) ∈ attachW ws k tags := by
  induction tags generalizing k with
  | nil => simp at h
  | cons hd tl ih =>
    obtain ⟨l, a, b⟩ := hd
    rcases List.mem_cons.mp h with rfl | h
    · refine ⟨2 + ws k % 7, by omega, ?_, ?_⟩
      · have h7 : ws k % 7 < 7 := Nat.mod_lt (ws k) (by omega)
        omega
      · exact List.mem_cons_self _ _
    · obtain ⟨w, h1, h2, h3⟩ := @ih (k + 1) h
      exact ⟨w, h1, h2, List.mem_cons_of_mem _ h3⟩

theorem attachW_mem {ws : Nat → Nat} {tags : List (String × String × String)}
    {k : Nat} {c : String × String × Nat} (h : c ∈ attachW ws k tags) :
    ∃ tg ∈ tags, c.1 = stationId tg.2.1 tg.1 ∧ c.2.1 = stationId tg.2.2 tg.1 ∧
      2 ≤ c.2.2 ∧ c.2.2 ≤ 8 := by
  induction tags generalizing k with
  | nil => simp [attachW] at h
  | cons hd tl ih =>
    obtain ⟨l, a, b⟩ := hd
    rcases List.mem_cons.mp h with rfl | h
    · refine ⟨(l, a, b), List.mem_cons_self _ _, rfl, rfl, ?_, ?_⟩
      · show 2 ≤ 2 + ws k % 7
        omega
      · show 2 + ws k % 7 ≤ 8
        have h7 : ws k % 7 < 7 := Nat.mod_lt (ws k) (by omega)
        omega
    · obtain ⟨tg, htg, h1, h2, h3, h4⟩ := @ih (k + 1) h
      exact ⟨tg, List.mem_cons_of_mem _ htg, h1, h2, h3, h4⟩

theorem tagged_filter_of_not_mem {L : List String} {f : String → List (String × String)}
    {x : String} (hx : x ∉ L) :
    ((L.map (fun t => (f t).map (fun p => (t, p.1, p.2)))).flatten).filter
      (fun e => decide (e.1 = x)) = [] := by
  induction L with
  | nil => rfl
  | cons t tl ih =>
    have hxt : x ≠ t := fun h => hx (h ▸ List.mem_cons_self t tl)
    have hxtl : x ∉ tl := fun h => hx (List.mem_cons_of_mem t h)
    simp only [List.map_cons, List.flatten_cons, List.filter_append, ih hxtl,
      List.append_nil]
    rw [List.filter_eq_nil_iff]
    intro e he
    obtain ⟨p, _, rfl⟩ := List.mem_map.mp he
    simp [Ne.symm hxt]

theorem tagged_filter {L : List String} {f : String → List (String × String)}
    {x : String} (hnd : L.Nodup) (hx : x ∈ L) :
    (((L.map (fun t => (f t).map (fun p => (t, p.1, p.2)))).flatten).filter
      (fun e => decide (e.1 = x))).map (fun e => e.2) = f x := by
  induction L with
  | nil => simp at hx
  | cons t tl ih =>
    simp only [List.map_cons, List.flatten_cons, List.filter_append, List.map_append]
    rcases List.mem_cons.mp hx with rfl | hx
    · have htl : x ∉ tl := (List.nodup_cons.mp hnd).1
      rw [tagged_filter_of_not_mem htl]
      have : ((f x).map (fun p => (x, p.1, p.2))).filter (fun e => decide (e.1 = x)) =
          (f x).map (fun p => (x, p.1, p.2)) := by
        rw [List.filter_eq_self]
        intro e he
        obtain ⟨p, _, rfl⟩ := List.mem_map.mp he
        simp
      rw [this]
      simp [List.map_map, Function.comp]
    · have hxt : x ≠ t := fun h => (List.nodup_cons.mp hnd).1 (h ▸ hx)
      have : ((f t).map (fun p => (t, p.1, p.2))).filter (fun e => decide (e.1 = x)) = [] := by
        rw [List.filter_eq_nil_iff]
        intro e he
        obtain ⟨p, _, rfl⟩ := List.mem_map.mp he
        simp [Ne.symm hxt]
      rw [this, ih (List.nodup_cons.mp hnd).2 hx]
      simp

theorem linesOrder_nodup (rows : List (String × String)) : (linesOrder rows).Nodup := by
  show (sortByLe strLe (rows.map (·.2)).dedup).Nodup
  exact ((rows.map (·.2)).nodup_dedup).perm (sortByLe_perm strLe _).symm

theorem stationNames_nodup (rows : List (String × String)) : (stationNames rows).Nodup := by
  show (sortByLe strLe (rows.map (·.1)).dedup).Nodup
  exact ((rows.map (·.1)).nodup_dedup).perm (sortByLe_perm strLe _).symm

theorem mem_linesOrder {rows : List (String × String)} {l : String} :
    l ∈ linesOrder rows ↔ ∃ r ∈ rows, r.2 = l := by
  show l ∈ sortByLe strLe (rows.map (·.2)).dedup ↔ _
  rw [(sortByLe_perm strLe _).mem_iff, List.mem_dedup, List.mem_map]

theorem mem_stationNames {rows : List (String × String)} {n : String} :
    n ∈ stationNames rows ↔ ∃ r ∈ rows, r.1 = n := by
  show n ∈ sortByLe strLe (rows.map (·.1)).dedup ↔ _
  rw [(sortByLe_perm strLe _).mem_iff, List.mem_dedup, List.mem_map]

theorem mem_rowsOfLine {rows : List (String × String)} {l n : String} :
    n ∈ rowsOfLine rows l ↔ (n, l) ∈ rows := by
  simp only [rowsOfLine, List.mem_map, List.mem_filter, decide_eq_true_eq]
  constructor
  · rintro ⟨⟨n', l'⟩, ⟨hr, hl⟩, h1⟩
    simp only at h1 hl
    subst h1; subst hl; exact hr
  · intro h
    exact ⟨(n, l), ⟨h, by simp⟩, rfl⟩

theorem mem_linesOfStation {rows : List (String × String)} {n l : String} :
    l ∈ linesOfStation rows n ↔ (n, l) ∈ rows := by
  simp only [linesOfStation, List.mem_map, List.mem_filter, decide_eq_true_eq]
  constructor
  · rintro ⟨⟨n', l'⟩, ⟨hr, hn⟩, h1⟩
    simp only at h1 hn
    subst h1; subst hn; exact hr
  · intro h
    exact ⟨(n, l), ⟨h, by simp⟩, rfl⟩

theorem count_rowsOfLine (rows : List (String × String)) (n l : String) :
    rows.count (n, l) ≤ (rowsOfLine rows l).count n := by
  induction rows with
  | nil => simp [rowsOfLine]
  | cons r tl ih =>
    by_cases h : r = (n, l)
    · subst h
      have : rowsOfLine ((n, l) :: tl) l = n :: rowsOfLine tl l := by
        simp [rowsOfLine]
      rw [this]
      simp only [List.count_cons_self]
      omega
    · have hc : ((r :: tl).count (n, l)) = tl.count (n, l) := by
        simp [List.count_cons, h]
      rw [hc]
      by_cases h2 : r.2 = l
      · have : rowsOfLine (r :: tl) l = r.1 :: rowsOfLine tl l := by
          simp [rowsOfLine, h2]
        rw [this]
        have := List.count_cons n r.1 (rowsOfLine tl l)
        omega
      · have : rowsOfLine (r :: tl) l = rowsOfLine tl l := by
          simp [rowsOfLine, h2]
        rw [this]
        exact ih

theorem count_linesOfStation (rows : List (String × String)) (n l : String) :
    rows.count (n, l) ≤ (linesOfStation rows n).count l := by
  induction rows with
  | nil => simp [linesOfStation]
  | cons r tl ih =>
    by_cases h : r = (n, l)
    · subst h
      have : linesOfStation ((n, l) :: tl) n = l :: linesOfStation tl n := by
        simp [linesOfStation]
      rw [this]
      simp only [List.count_cons_self]
      omega
    · have hc : ((r :: tl).count (n, l)) = tl.count (n, l) := by
        simp [List.count_cons, h]
      rw [hc]
      by_cases h2 : r.1 = n
      · have : linesOfStation (r :: tl) n = r.2 :: linesOfStation tl n := by
          simp [linesOfStation, h2]
        rw [this]
        have := List.count_cons l r.2 (linesOfStation tl n)
        omega
      · have : linesOfStation (r :: tl) n = linesOfStation tl n := by
          simp [linesOfStation, h2]
        rw [this]
        exact ih

/-! ### Structure of the built graph -/

/-- Phase 1 of `build_graph`: all rows registered as stations. -/
def stationsGraph (rows : List (String × String)) : Graph :=
  rows.foldl (fun g r => g.add_station ⟨r.1, r.2⟩) ⟨[], []⟩

theorem build_graph_eq (rows : List (String × String)) (ws : Nat → Nat) :
    build_graph rows ws =
      (allConnections rows ws).foldl (fun g c => g.add_connection c.1 c.2.1 c.2.2)
        (stationsGraph rows) := rfl

theorem dget_none_of_not_mem {α : Type} {d : List (String × α)} {x : String}
    (h : x ∉ d.map (·.1)) : dget d x = none := by
  induction d with
  | nil => rfl
  | cons kv t ih =>
    obtain ⟨k, v⟩ := kv
    have hk : k ≠ x := by
      intro hc; exact h (by simp [hc])
    simp only [dget, hk, if_false]
    exact ih (fun hc => h (by simp [hc]))

theorem edgesOf_add_station (g : Graph) (st : Station) (x : String) :
    edgesOf (g.add_station st) x = if x = st.id then [] else edgesOf g x := by
  by_cases h : x = st.id
  · subst h
    simp [edgesOf, Graph.add_station, dget_dset_self]
  · simp [edgesOf, Graph.add_station, dget_dset_other _ _ h, h]

theorem stationsGraph_fold (rows : List (String × String)) : ∀ g : Graph,
    g.edges.map (·.1) = g.nodes.map (·.1) →
    (g.nodes.map (·.1)).Nodup →
    (∀ x, edgesOf g x = []) →
    let g' := rows.foldl (fun g r => g.add_station ⟨r.1, r.2⟩) g
    g'.edges.map (·.1) = g'.nodes.map (·.1) ∧
    (g'.nodes.map (·.1)).Nodup ∧
    (∀ x, edgesOf g' x = []) ∧
    (∀ x, x ∈ g'.nodes.map (·.1) ↔
      x ∈ g.nodes.map (·.1) ∨ ∃ r ∈ rows, stationId r.1 r.2 = x) := by
  induction rows with
  | nil =>
    intro g h1 h2 h3
    exact ⟨h1, h2, h3, by simp⟩
  | cons r tl ih =>
    intro g h1 h2 h3
    simp only [List.foldl_cons]
    have hstep1 : (g.add_station ⟨r.1, r.2⟩).edges.map (·.1) =
        (g.add_station ⟨r.1, r.2⟩).nodes.map (·.1) := by
      simp only [Graph.add_station, dset_keys, h1]
    have hstep2 : ((g.add_station ⟨r.1, r.2⟩).nodes.map (·.1)).Nodup :=
      dset_keys_nodup h2 _ _
    have hstep3 : ∀ x, edgesOf (g.add_station ⟨r.1, r.2⟩) x = [] := by
      intro x
      rw [edgesOf_add_station]
      by_cases h : x = (Station.mk r.1 r.2).id
      · simp [h]
      · simp [h, h3]
    obtain ⟨k1, k2, k3, k4⟩ := ih (g.add_station ⟨r.1, r.2⟩) hstep1 hstep2 hstep3
    refine ⟨k1, k2, k3, ?_⟩
    intro x
    rw [k4]
    have hmem : x ∈ (g.add_station ⟨r.1, r.2⟩).nodes.map (·.1) ↔
        x ∈ g.nodes.map (·.1) ∨ stationId r.1 r.2 = x := by
      simp only [Graph.add_station, dset_keys]
      by_cases h : (Station.mk r.1 r.2).id ∈ g.nodes.map (·.1)
      · simp only [h, if_true]
        constructor
        · intro hx; exact Or.inl hx
        · rintro (hx | hx)
          · exact hx
          · rw [← hx]; exact h
      · simp only [h, if_false, List.mem_append, List.mem_singleton]
        constructor
        · rintro (hx | hx)
          · exact Or.inl hx
          · exact Or.inr hx.symm
        · rintro (hx | hx)
          · exact Or.inl hx
          · exact Or.inr hx.symm
    rw [hmem]
    constructor
    · rintro ((hx | hx) | ⟨r', hr', hx⟩)
      · exact Or.inl hx
      · exact Or.inr ⟨r, List.mem_cons_self r tl, hx⟩
      · exact Or.inr ⟨r', List.mem_cons_of_mem r hr', hx⟩
    · rintro (hx | ⟨r', hr', hx⟩)
      · exact Or.inl (Or.inl hx)
      · rcases List.mem_cons.mp hr' with rfl | hr'
        · exact Or.inl (Or.inr hx)
        · exact Or.inr ⟨r', hr', hx⟩

theorem stationsGraph_spec (rows : List (String × String)) :
    (stationsGraph rows).edges.map (·.1) = (stationsGraph rows).nodes.map (·.1) ∧
    ((stationsGraph rows).nodes.map (·.1)).Nodup ∧
    (∀ x, edgesOf (stationsGraph rows) x = []) ∧
    (∀ x, x ∈ (stationsGraph rows).nodes.map (·.1) ↔
      ∃ r ∈ rows, stationId r.1 r.2 = x) := by
  obtain ⟨h1, h2, h3, h4⟩ := stationsGraph_fold rows ⟨[], []⟩ rfl List.nodup_nil
    (fun x => rfl)
  refine ⟨h1, h2, h3, ?_⟩
  intro x
  simpa using h4 x

/-! ### add_connection and the connection fold -/

theorem dappend_not_mem {α : Type} {d : List (String × List α)} {k : String}
    (h : k ∉ d.map (·.1)) (v : α) : dappend d k v = d := by
  induction d with
  | nil => rfl
  | cons kv t ih =>
    obtain ⟨k', l⟩ := kv
    have hk : k' ≠ k := by
      intro hc; exact h (by simp [hc])
    simp only [dappend, hk, if_false, List.cons.injEq, true_and]
    exact ih (fun hc => h (by simp [hc]))

theorem add_connection_nodes (g : Graph) (a b : String) (t : Nat) :
    (g.add_connection a b t).nodes = g.nodes := rfl

theorem add_connection_edge_keys (g : Graph) (a b : String) (t : Nat) :
    (g.add_connection a b t).edges.map (·.1) = g.edges.map (·.1) := by
  simp [Graph.add_connection, dappend_keys]

theorem edgesOf_add_connection {g : Graph} {a b : String}
    (hnd : (g.edges.map (·.1)).Nodup)
    (ha : a ∈ g.edges.map (·.1)) (hb : b ∈ g.edges.map (·.1)) (t : Nat) (x : String) :
    edgesOf (g.add_connection a b t) x =
      edgesOf g x ++ (if x = a then [(b, t)] else []) ++ (if x = b then [(a, t)] else []) := by
  have hbD : b ∈ (dappend g.edges a (b, t)).map (·.1) := by rw [dappend_keys]; exact hb
  have hndD : ((dappend g.edges a (b, t)).map (·.1)).Nodup := by rw [dappend_keys]; exact hnd
  show (dget (dappend (dappend g.edges a (b, t)) b (a, t)) x).getD [] = _
  by_cases hxb : x = b
  · subst hxb
    rw [dget_dappend_of_mem hndD hbD]
    by_cases hxa : x = a
    · subst hxa
      rw [dget_dappend_of_mem hnd ha]
      simp [edgesOf]
    · rw [dget_dappend_other _ _ hxa]
      simp [edgesOf, hxa]
  · rw [dget_dappend_other _ _ hxb]
    by_cases hxa : x = a
    · subst hxa
      rw [dget_dappend_of_mem hnd ha]
      simp [edgesOf, hxb]
    · rw [dget_dappend_other _ _ hxa]
      simp [edgesOf, hxa, hxb]

theorem mem_dget_dappend {α : Type} (d : List (String × List α)) (k x : String)
    (v e : α) (hm : e ∈ (dget d x).getD []) : e ∈ (dget (dappend d k v) x).getD [] := by
  induction d with
  | nil => simp [dget] at hm
  | cons kv tl ih =>
    obtain ⟨k', l⟩ := kv
    by_cases hk : k' = k
    · subst hk
      by_cases hx : k' = x
      · subst hx
        simp only [dappend, if_pos rfl, dget, Option.getD_some] at hm ⊢
        exact List.mem_append_left _ hm
      · simp only [dappend, if_pos rfl, dget, if_neg hx] at hm ⊢
        exact hm
    · by_cases hx : k' = x
      · subst hx
        simp only [dappend, if_neg hk, dget, Option.getD_some] at hm ⊢
        exact hm
      · simp only [dappend, if_neg hk, dget, if_neg hx] at hm ⊢
        exact ih hm

theorem edgesOf_add_connection_mono {g : Graph} {x : String} {e : String × Nat}
    (he : e ∈ edgesOf g x) (a b : String) (t : Nat) :
    e ∈ edgesOf (g.add_connection a b t) x := by
  have h1 := mem_dget_dappend g.edges a x (b, t) e he
  exact mem_dget_dappend _ b x (a, t) e h1

/-- The connection fold used by `build_graph`. -/
def connFold (conns : List (String × String × Nat)) (g : Graph) : Graph :=
  conns.foldl (fun g c => g.add_connection c.1 c.2.1 c.2.2) g

theorem connFold_nodes (conns : List (String × String × Nat)) (g : Graph) :
    (connFold conns g).nodes = g.nodes := by
  induction conns generalizing g with
  | nil => rfl
  | cons c tl ih => exact ih _

theorem connFold_edge_keys (conns : List (String × String × Nat)) (g : Graph) :
    (connFold conns g).edges.map (·.1) = g.edges.map (·.1) := by
  induction conns generalizing g with
  | nil => rfl
  | cons c tl ih =>
    rw [show connFold (c :: tl) g = connFold tl (g.add_connection c.1 c.2.1 c.2.2) from rfl,
      ih, add_connection_edge_keys]

theorem connFold_mono {conns : List (String × String × Nat)} {g : Graph} {x : String}
    {e : String × Nat} (he : e ∈ edgesOf g x) : e ∈ edgesOf (connFold conns g) x := by
  induction conns generalizing g with
  | nil => exact he
  | cons c tl ih => exact ih (edgesOf_add_connection_mono he _ _ _)

theorem connFold_present {conns : List (String × String × Nat)} {g : Graph}
    (hnd : (g.edges.map (·.1)).Nodup)
    (hend : ∀ c ∈ conns, c.1 ∈ g.edges.map (·.1) ∧ c.2.1 ∈ g.edges.map (·.1)) :
    ∀ c ∈ conns, (c.2.1, c.2.2) ∈ edgesOf (connFold conns g) c.1 ∧
      (c.1, c.2.2) ∈ edgesOf (connFold conns g) c.2.1 := by
  induction conns generalizing g with
  | nil => intro c hc; simp at hc
  | cons c0 tl ih =>
    intro c hc
    obtain ⟨ha, hb⟩ := hend c0 (List.mem_cons_self c0 tl)
    have hkeys : (g.add_connection c0.1 c0.2.1 c0.2.2).edges.map (·.1) = g.edges.map (·.1) :=
      add_connection_edge_keys g _ _ _
    have hnd' : ((g.add_connection c0.1 c0.2.1 c0.2.2).edges.map (·.1)).Nodup := by
      rw [hkeys]; exact hnd
    have hend' : ∀ c ∈ tl, c.1 ∈ (g.add_connection c0.1 c0.2.1 c0.2.2).edges.map (·.1) ∧
        c.2.1 ∈ (g.add_connection c0.1 c0.2.1 c0.2.2).edges.map (·.1) := by
      intro c hc
      rw [hkeys]
      exact hend c (List.mem_cons_of_mem _ hc)
    rcases List.mem_cons.mp hc with rfl | hc
    · have hstep := edgesOf_add_connection hnd ha hb c.2.2
      rw [show connFold (c :: tl) g = connFold tl (g.add_connection c.1 c.2.1 c.2.2) from rfl]
      constructor
      · apply connFold_mono
        rw [hstep c.1]
        simp
      · apply connFold_mono
        rw [hstep c.2.1]
        by_cases h : c.2.1 = c.1
        · simp [h]
        · simp [h]
    · exact ih hnd' hend' c hc

theorem connFold_sym {conns : List (String × String × Nat)} {g : Graph}
    (hnd : (g.edges.map (·.1)).Nodup)
    (hend : ∀ c ∈ conns, c.1 ∈ g.edges.map (·.1) ∧ c.2.1 ∈ g.edges.map (·.1))
    (hsym : ∀ a b w, (b, w) ∈ edgesOf g a → (a, w) ∈ edgesOf g b) :
    ∀ a b w, (b, w) ∈ edgesOf (connFold conns g) a →
      (a, w) ∈ edgesOf (connFold conns g) b := by
  induction conns generalizing g with
  | nil => exact hsym
  | cons c0 tl ih =>
    obtain ⟨ha, hb⟩ := hend c0 (List.mem_cons_self c0 tl)
    have hkeys : (g.add_connection c0.1 c0.2.1 c0.2.2).edges.map (·.1) = g.edges.map (·.1) :=
      add_connection_edge_keys g _ _ _
    have hnd' : ((g.add_connection c0.1 c0.2.1 c0.2.2).edges.map (·.1)).Nodup := by
      rw [hkeys]; exact hnd
    have hend' : ∀ c ∈ tl, c.1 ∈ (g.add_connection c0.1 c0.2.1 c0.2.2).edges.map (·.1) ∧
        c.2.1 ∈ (g.add_connection c0.1 c0.2.1 c0.2.2).edges.map (·.1) := by
      intro c hc
      rw [hkeys]
      exact hend c (List.mem_cons_of_mem _ hc)
    have hstep := edgesOf_add_connection hnd ha hb c0.2.2
    have hsym' : ∀ a b w, (b, w) ∈ edgesOf (g.add_connection c0.1 c0.2.1 c0.2.2) a →
        (a, w) ∈ edgesOf (g.add_connection c0.1 c0.2.1 c0.2.2) b := by
      intro a b w hba
      rw [hstep a] at hba
      rw [hstep b]
      simp only [List.mem_append] at hba ⊢
      rcases hba with (hba | hba) | hba
      · exact Or.inl (Or.inl (hsym a b w hba))
      · by_cases h : a = c0.1
        · rw [if_pos h] at hba
          have heq : (b, w) = (c0.2.1, c0.2.2) := List.mem_singleton.mp hba
          have h1 : b = c0.2.1 := congrArg Prod.fst heq
          have h2 : w = c0.2.2 := congrArg Prod.snd heq
          subst h; subst h1; subst h2
          right
          rw [if_pos rfl]
          exact List.mem_singleton.mpr rfl
        · rw [if_neg h] at hba
          exact absurd hba (List.not_mem_nil _)
      · by_cases h : a = c0.2.1
        · rw [if_pos h] at hba
          have heq : (b, w) = (c0.1, c0.2.2) := List.mem_singleton.mp hba
          have h1 : b = c0.1 := congrArg Prod.fst heq
          have h2 : w = c0.2.2 := congrArg Prod.snd heq
          subst h; subst h1; subst h2
          refine Or.inl (Or.inr ?_)
          rw [if_pos rfl]
          exact List.mem_singleton.mpr rfl
        · rw [if_neg h] at hba
          exact absurd hba (List.not_mem_nil _)
    exact ih hnd' hend' hsym'

theorem connFold_targets {P : String × Nat → Prop} {conns : List (String × String × Nat)}
    {g : Graph} (hnd : (g.edges.map (·.1)).Nodup)
    (hend : ∀ c ∈ conns, c.1 ∈ g.edges.map (·.1) ∧ c.2.1 ∈ g.edges.map (·.1))
    (hg : ∀ x e, e ∈ edgesOf g x → P e)
    (hconns : ∀ c ∈ conns, P (c.2.1, c.2.2) ∧ P (c.1, c.2.2)) :
    ∀ x e, e ∈ edgesOf (connFold conns g) x → P e := by
  induction conns generalizing g with
  | nil => exact hg
  | cons c0 tl ih =>
    obtain ⟨ha, hb⟩ := hend c0 (List.mem_cons_self c0 tl)
    have hkeys : (g.add_connection c0.1 c0.2.1 c0.2.2).edges.map (·.1) = g.edges.map (·.1) :=
      add_connection_edge_keys g _ _ _
    have hnd' : ((g.add_connection c0.1 c0.2.1 c0.2.2).edges.map (·.1)).Nodup := by
      rw [hkeys]; exact hnd
    have hend' : ∀ c ∈ tl, c.1 ∈ (g.add_connection c0.1 c0.2.1 c0.2.2).edges.map (·.1) ∧
        c.2.1 ∈ (g.add_connection c0.1 c0.2.1 c0.2.2).edges.map (·.1) := by
      intro c hc
      rw [hkeys]
      exact hend c (List.mem_cons_of_mem _ hc)
    have hstep := edgesOf_add_connection hnd ha hb c0.2.2
    have hg' : ∀ x e, e ∈ edgesOf (g.add_connection c0.1 c0.2.1 c0.2.2) x → P e := by
      intro x e hx
      rw [hstep x] at hx
      simp only [List.mem_append] at hx
      rcases hx with (hx | hx) | hx
      · exact hg x e hx
      · by_cases h : x = c0.1
        · rw [if_pos h] at hx
          rw [List.mem_singleton.mp hx]
          exact (hconns c0 (List.mem_cons_self c0 tl)).1
        · rw [if_neg h] at hx
          exact absurd hx (List.not_mem_nil _)
      · by_cases h : x = c0.2.1
        · rw [if_pos h] at hx
          rw [List.mem_singleton.mp hx]
          exact (hconns c0 (List.mem_cons_self c0 tl)).2
        · rw [if_neg h] at hx
          exact absurd hx (List.not_mem_nil _)
    exact ih hnd' hend' hg' (fun c hc => hconns c (List.mem_cons_of_mem _ hc))

theorem mem_sortedStations {rows : List (String × String)} {l n : String}
    (h : n ∈ sortedStations rows l) : (n, l) ∈ rows :=
  mem_rowsOfLine.mp ((sortByLe_perm strLe _).mem_iff.mp h)

theorem intraTagged_mem {rows : List (String × String)} {tg : String × String × String}
    (h : tg ∈ intraTagged rows) : (tg.2.1, tg.1) ∈ rows ∧ (tg.2.2, tg.1) ∈ rows := by
  obtain ⟨L, hL, htg⟩ := List.mem_flatten.mp h
  obtain ⟨l, hl, rfl⟩ := List.mem_map.mp hL
  obtain ⟨ab, hab, rfl⟩ := List.mem_map.mp htg
  obtain ⟨h1, h2⟩ := List.of_mem_zip hab
  exact ⟨mem_sortedStations h1, mem_sortedStations (List.mem_of_mem_tail h2)⟩

theorem transferTagged_mem {rows : List (String × String)} {tg : String × String × String}
    (h : tg ∈ transferTagged rows) : (tg.1, tg.2.1) ∈ rows ∧ (tg.1, tg.2.2) ∈ rows := by
  obtain ⟨L, hL, htg⟩ := List.mem_flatten.mp h
  obtain ⟨n, hn, rfl⟩ := List.mem_map.mp hL
  obtain ⟨p, hp, rfl⟩ := List.mem_map.mp htg
  obtain ⟨h1, h2⟩ := upairs_sub hp
  exact ⟨mem_linesOfStation.mp h1, mem_linesOfStation.mp h2⟩

theorem allConnections_spec {rows : List (String × String)} {ws : Nat → Nat}
    {c : String × String × Nat} (h : c ∈ allConnections rows ws) :
    (∃ r ∈ rows, stationId r.1 r.2 = c.1) ∧ (∃ r ∈ rows, stationId r.1 r.2 = c.2.1) ∧
      2 ≤ c.2.2 ∧ c.2.2 ≤ 8 := by
  rcases List.mem_append.mp h with h | h
  · obtain ⟨tg, htg, h1, h2, h3, h4⟩ := attachW_mem h
    obtain ⟨ha, hb⟩ := intraTagged_mem htg
    exact ⟨⟨(tg.2.1, tg.1), ha, h1.symm⟩, ⟨(tg.2.2, tg.1), hb, h2.symm⟩, h3, h4⟩
  · obtain ⟨tg, htg, rfl⟩ := List.mem_map.mp h
    obtain ⟨ha, hb⟩ := transferTagged_mem htg
    exact ⟨⟨(tg.1, tg.2.1), ha, rfl⟩, ⟨(tg.1, tg.2.2), hb, rfl⟩,
      by show (2 : Nat) ≤ 5; omega, by show (5 : Nat) ≤ 8; omega⟩

theorem build_graph_nodes_mem (rows : List (String × String)) (ws : Nat → Nat) (x : String) :
    x ∈ nodeKeys (build_graph rows ws) ↔ ∃ r ∈ rows, stationId r.1 r.2 = x := by
  rw [build_graph_eq]
  show x ∈ (connFold (allConnections rows ws) (stationsGraph rows)).nodes.map (·.1) ↔ _
  rw [connFold_nodes]
  exact (stationsGraph_spec rows).2.2.2 x

theorem build_graph_keys_nodup (rows : List (String × String)) (ws : Nat → Nat) :
    (nodeKeys (build_graph rows ws)).Nodup := by
  rw [build_graph_eq]
  show ((connFold (allConnections rows ws) (stationsGraph rows)).nodes.map (·.1)).Nodup
  rw [connFold_nodes]
  exact (stationsGraph_spec rows).2.1

theorem build_graph_edge_keys (rows : List (String × String)) (ws : Nat → Nat) :
    (build_graph rows ws).edges.map (·.1) = nodeKeys (build_graph rows ws) := by
  rw [build_graph_eq]
  show (connFold (allConnections rows ws) (stationsGraph rows)).edges.map (·.1) =
    (connFold (allConnections rows ws) (stationsGraph rows)).nodes.map (·.1)
  rw [connFold_edge_keys, connFold_nodes]
  exact (stationsGraph_spec rows).1

theorem stationsGraph_endpoint_keys {rows : List (String × String)} {ws : Nat → Nat} :
    ∀ c ∈ allConnections rows ws,
      c.1 ∈ (stationsGraph rows).edges.map (·.1) ∧
      c.2.1 ∈ (stationsGraph rows).edges.map (·.1) := by
  intro c hc
  obtain ⟨ha, hb, _, _⟩ := allConnections_spec hc
  rw [(stationsGraph_spec rows).1]
  exact ⟨((stationsGraph_spec rows).2.2.2 c.1).mpr ha,
    ((stationsGraph_spec rows).2.2.2 c.2.1).mpr hb⟩

theorem build_graph_closed (rows : List (String × String)) (ws : Nat → Nat) :
    ∀ x e, e ∈ edgesOf (build_graph rows ws) x →
      e.1 ∈ nodeKeys (build_graph rows ws) ∧ 2 ≤ e.2 ∧ e.2 ≤ 8 := by
  have hnd : ((stationsGraph rows).edges.map (·.1)).Nodup := by
    rw [(stationsGraph_spec rows).1]; exact (stationsGraph_spec rows).2.1
  intro x e he
  rw [build_graph_eq] at he
  refine @connFold_targets
      (fun e => e.1 ∈ nodeKeys (build_graph rows ws) ∧ 2 ≤ e.2 ∧ e.2 ≤ 8)
      (allConnections rows ws) (stationsGraph rows) hnd stationsGraph_endpoint_keys
      ?_ ?_ x e he
  · intro x e he
    rw [(stationsGraph_spec rows).2.2.1 x] at he
    exact absurd he (List.not_mem_nil _)
  · intro c hc
    obtain ⟨ha, hb, h2, h8⟩ := allConnections_spec hc
    constructor
    · exact ⟨by rw [build_graph_nodes_mem]; exact hb, h2, h8⟩
    · exact ⟨by rw [build_graph_nodes_mem]; exact ha, h2, h8⟩

theorem build_graph_present {rows : List (String × String)} {ws : Nat → Nat} :
    ∀ c ∈ allConnections rows ws,
      (c.2.1, c.2.2) ∈ edgesOf (build_graph rows ws) c.1 ∧
      (c.1, c.2.2) ∈ edgesOf (build_graph rows ws) c.2.1 := by
  have hnd : ((stationsGraph rows).edges.map (·.1)).Nodup := by
    rw [(stationsGraph_spec rows).1]; exact (stationsGraph_spec rows).2.1
  intro c hc
  rw [build_graph_eq]
  exact connFold_present hnd stationsGraph_endpoint_keys c hc

/-- C3.  In every graph `build_graph` produces, edges are symmetric: if the
adjacency list of `a` holds `(b, w)` then the list of `b` holds `(a, w)`. -/
theorem claim_C3 (rows : List (String × String)) (ws : Nat → Nat) (a b : String) (w : Nat)
    (h : (b, w) ∈ edgesOf (build_graph rows ws) a) :
    (a, w) ∈ edgesOf (build_graph rows ws) b := by
  have hnd : ((stationsGraph rows).edges.map (·.1)).Nodup := by
    rw [(stationsGraph_spec rows).1]; exact (stationsGraph_spec rows).2.1
  rw [build_graph_eq] at h ⊢
  refine connFold_sym hnd stationsGraph_endpoint_keys ?_ a b w h
  intro a b w hmem
  rw [(stationsGraph_spec rows).2.2.1 a] at hmem
  exact absurd hmem (List.not_mem_nil _)

theorem rowsOfLine_nodup {rows : List (String × String)} (hnd : rows.Nodup) (l : String) :
    (rowsOfLine rows l).Nodup := by
  apply List.Nodup.map_on _ (List.Nodup.filter _ hnd)
  intro x hx y hy hxy
  have hx2 : x.2 = l := by simpa using (List.mem_filter.mp hx).2
  have hy2 : y.2 = l := by simpa using (List.mem_filter.mp hy).2
  obtain ⟨x1, x2⟩ := x
  obtain ⟨y1, y2⟩ := y
  simp only at hx2 hy2 hxy
  rw [hx2, hy2, hxy]

theorem linesOfStation_nodup {rows : List (String × String)} (hnd : rows.Nodup) (n : String) :
    (linesOfStation rows n).Nodup := by
  apply List.Nodup.map_on _ (List.Nodup.filter _ hnd)
  intro x hx y hy hxy
  have hx1 : x.1 = n := by simpa using (List.mem_filter.mp hx).2
  have hy1 : y.1 = n := by simpa using (List.mem_filter.mp hy).2
  obtain ⟨x1, x2⟩ := x
  obtain ⟨y1, y2⟩ := y
  simp only at hx1 hy1 hxy
  rw [hx1, hy1, hxy]

theorem linePairs_mem_intraTagged {rows : List (String × String)} {l : String}
    (hl : l ∈ linesOrder rows) {ab : String × String} (hab : ab ∈ linePairs rows l) :
    (l, ab.1, ab.2) ∈ intraTagged rows := by
  apply List.mem_flatten.mpr
  refine ⟨(linePairs rows l).map (fun ab => (l, ab.1, ab.2)), ?_, ?_⟩
  · exact List.mem_map.mpr ⟨l, hl, rfl⟩
  · exact List.mem_map.mpr ⟨ab, hab, rfl⟩

theorem upairs_mem_transferTagged {rows : List (String × String)} {n : String}
    (hn : n ∈ stationNames rows) {p : String × String}
    (hp : p ∈ upairs (linesOfStation rows n)) : (n, p.1, p.2) ∈ transferTagged rows := by
  apply List.mem_flatten.mpr
  refine ⟨(upairs (linesOfStation rows n)).map (fun p => (n, p.1, p.2)), ?_, ?_⟩
  · exact List.mem_map.mpr ⟨n, hn, rfl⟩
  · exact List.mem_map.mpr ⟨p, hp, rfl⟩

theorem intra_edge_exists {rows : List (String × String)} {ws : Nat → Nat}
    {tg : String × String × String} (htg : tg ∈ intraTagged rows) :
    ∃ w, 2 ≤ w ∧ w ≤ 8 ∧
      (stationId tg.2.2 tg.1, w) ∈ edgesOf (build_graph rows ws) (stationId tg.2.1 tg.1) ∧
      (stationId tg.2.1 tg.1, w) ∈ edgesOf (build_graph rows ws) (stationId tg.2.2 tg.1) := by
  obtain ⟨w, h2, h8, hmem⟩ := @attachW_src ws (intraTagged rows) 0 tg htg
  have hc : (stationId tg.2.1 tg.1, stationId tg.2.2 tg.1, w) ∈ allConnections rows ws :=
    List.mem_append_left _ hmem
  have := build_graph_present _ hc
  exact ⟨w, h2, h8, this.1, this.2⟩

theorem transfer_edge_exists {rows : List (String × String)} {ws : Nat → Nat}
    {tg : String × String × String} (htg : tg ∈ transferTagged rows) :
    (stationId tg.1 tg.2.2, 5) ∈ edgesOf (build_graph rows ws) (stationId tg.1 tg.2.1) ∧
    (stationId tg.1 tg.2.1, 5) ∈ edgesOf (build_graph rows ws) (stationId tg.1 tg.2.2) := by
  have hc : (stationId tg.1 tg.2.1, stationId tg.1 tg.2.2, 5) ∈ allConnections rows ws :=
    List.mem_append_right _ (List.mem_map.mpr ⟨tg, htg, rfl⟩)
  have := build_graph_present _ hc
  exact ⟨this.1, this.2⟩

/-- C4.  On duplicate-free input, a line with k stations gets exactly the
k-1 intra-line connections over consecutive stations of its
ascending-sorted station list, each with a weight in 2..8, and those edges
are in the built graph. -/
theorem claim_C4 (rows : List (String × String)) (ws : Nat → Nat) (l : String)
    (hnd : rows.Nodup) (hk : 2 ≤ (rowsOfLine rows l).length) :
    ((intraTagged rows).filter (fun e => decide (e.1 = l))).map (fun e => e.2) =
        linePairs rows l ∧
    (linePairs rows l).length = (rowsOfLine rows l).length - 1 ∧
    List.Perm (sortedStations rows l) (rowsOfLine rows l) ∧
    ChainLe strLe (sortedStations rows l) ∧
    (sortedStations rows l).Nodup ∧
    ∀ ab ∈ linePairs rows l, ab.1 ≠ ab.2 ∧ ∃ w, 2 ≤ w ∧ w ≤ 8 ∧
      (stationId ab.2 l, w) ∈ edgesOf (build_graph rows ws) (stationId ab.1 l) ∧
      (stationId ab.1 l, w) ∈ edgesOf (build_graph rows ws) (stationId ab.2 l) := by
  have hne : rowsOfLine rows l ≠ [] := by
    intro h; rw [h] at hk; simp at hk
  obtain ⟨n, hn⟩ := List.exists_mem_of_ne_nil _ hne
  have hl : l ∈ linesOrder rows :=
    mem_linesOrder.mpr ⟨(n, l), mem_rowsOfLine.mp hn, rfl⟩
  have hperm : List.Perm (sortedStations rows l) (rowsOfLine rows l) :=
    sortByLe_perm strLe _
  have hssnd : (sortedStations rows l).Nodup :=
    hperm.nodup_iff.mpr (rowsOfLine_nodup hnd l)
  refine ⟨tagged_filter (linesOrder_nodup rows) hl, ?_, hperm, sortByLe_chain strLe strLe_total _,
    hssnd, ?_⟩
  · have hlen : (sortedStations rows l).length = (rowsOfLine rows l).length := hperm.length_eq
    rw [linePairs, List.length_zip, List.length_tail, hlen]
    omega
  · intro ab hab
    refine ⟨nodup_consec_ne hssnd hab, ?_⟩
    exact @intra_edge_exists rows ws (l, ab.1, ab.2) (linePairs_mem_intraTagged hl hab)

/-- C5.  On duplicate-free input, a station on L lines gets exactly the
L(L-1)/2 weight-5 transfer connections, one per index-ordered pair of its
distinct lines, all present in the built graph; one line means none. -/
theorem claim_C5 (rows : List (String × String)) (ws : Nat → Nat) (n : String)
    (hnd : rows.Nodup) :
    ((transferTagged rows).filter (fun e => decide (e.1 = n))).map (fun e => e.2) =
        upairs (linesOfStation rows n) ∧
    (upairs (linesOfStation rows n)).length =
        (linesOfStation rows n).length * ((linesOfStation rows n).length - 1) / 2 ∧
    ((linesOfStation rows n).length ≤ 1 → upairs (linesOfStation rows n) = []) ∧
    ∀ p ∈ upairs (linesOfStation rows n), p.1 ≠ p.2 ∧
      (stationId n p.2, 5) ∈ edgesOf (build_graph rows ws) (stationId n p.1) ∧
      (stationId n p.1, 5) ∈ edgesOf (build_graph rows ws) (stationId n p.2) := by
  refine ⟨?_, ?_, ?_, ?_⟩
  · by_cases hn : n ∈ stationNames rows
    · exact tagged_filter (stationNames_nodup rows) hn
    · have hempty : linesOfStation rows n = [] := by
        cases hls : linesOfStation rows n with
        | nil => rfl
        | cons x t =>
          exfalso
          apply hn
          have hx : x ∈ linesOfStation rows n := by rw [hls]; exact List.mem_cons_self x t
          exact mem_stationNames.mpr ⟨(n, x), mem_linesOfStation.mp hx, rfl⟩
      rw [hempty]
      rw [show transferTagged rows = ((stationNames rows).map
        (fun t => (upairs (linesOfStation rows t)).map (fun p => (t, p.1, p.2)))).flatten
        from rfl]
      rw [tagged_filter_of_not_mem hn]
      rfl
  · have := upairs_len (linesOfStation rows n)
    omega
  · intro h1
    cases hls : linesOfStation rows n with
    | nil => rfl
    | cons x t =>
      cases t with
      | nil => simp [upairs]
      | cons y u => rw [hls] at h1; simp at h1
  · intro p hp
    have hfst : p.1 ∈ linesOfStation rows n := (upairs_sub hp).1
    have hn : n ∈ stationNames rows :=
      mem_stationNames.mpr ⟨(n, p.1), mem_linesOfStation.mp hfst, rfl⟩
    refine ⟨upairs_ne_of_nodup (linesOfStation_nodup hnd n) hp, ?_⟩
    exact @transfer_edge_exists rows ws (n, p.1, p.2) (upairs_mem_transferTagged hn hp)

/-- C10.  A duplicated (name, line) row yields self-loops on its node: one
from the intra-line pass with a weight in 2..8 (the duplicate sorts next to
itself), and one of weight 5 from the transfer pass pairing the equal
lines. -/
theorem claim_C10 (rows : List (String × String)) (ws : Nat → Nat) (n l : String)
    (hdup : 2 ≤ rows.count (n, l)) :
    (l, n, n) ∈ intraTagged rows ∧ (n, l, l) ∈ transferTagged rows ∧
    (∃ w, 2 ≤ w ∧ w ≤ 8 ∧
      (stationId n l, w) ∈ edgesOf (build_graph rows ws) (stationId n l)) ∧
    (stationId n l, 5) ∈ edgesOf (build_graph rows ws) (stationId n l) := by
  have hmem : (n, l) ∈ rows := List.count_pos_iff.mp (by omega)
  have hl : l ∈ linesOrder rows := mem_linesOrder.mpr ⟨(n, l), hmem, rfl⟩
  have hn : n ∈ stationNames rows := mem_stationNames.mpr ⟨(n, l), hmem, rfl⟩
  have hcount : 2 ≤ (sortedStations rows l).count n := by
    have h1 := count_rowsOfLine rows n l
    have h2 : (sortedStations rows l).count n = (rowsOfLine rows l).count n :=
      (sortByLe_perm strLe _).count_eq n
    omega
  have hpair : (n, n) ∈ linePairs rows l :=
    chainLe_dup_adjacent (sortByLe_chain strLe strLe_total _) hcount
  have hintra : (l, n, n) ∈ intraTagged rows := linePairs_mem_intraTagged hl hpair
  have hlcount : 2 ≤ (linesOfStation rows n).count l := by
    have := count_linesOfStation rows n l
    omega
  have htrans : (n, l, l) ∈ transferTagged rows :=
    upairs_mem_transferTagged hn (upairs_mem_of_count hlcount)
  refine ⟨hintra, htrans, ?_, ?_⟩
  · obtain ⟨w, h2, h8, hedge, _⟩ := @intra_edge_exists rows ws (l, n, n) hintra
    exact ⟨w, h2, h8, hedge⟩
  · exact (@transfer_edge_exists rows ws (n, l, l) htrans).1

/-- C7.  Both finders resolve a queried name to exactly the node ids whose
identifier string starts with it, so a station name that is a prefix of
another station's name matches both stations' nodes. -/
theorem claim_C7 (rows : List (String × String)) (ws : Nat → Nat) (name sid : String) :
    (sid ∈ candidate_ids (build_graph rows ws) name ↔
      sid ∈ nodeKeys (build_graph rows ws) ∧ startswith name sid = true) ∧
    ∀ n1 l1 n2 l2, (n1, l1) ∈ rows → (n2, l2) ∈ rows → n1.data <+: n2.data →
      stationId n1 l1 ∈ candidate_ids (build_graph rows ws) n1 ∧
      stationId n2 l2 ∈ candidate_ids (build_graph rows ws) n1 := by
  constructor
  · rw [candidate_ids, List.mem_filter]
  · intro n1 l1 n2 l2 h1 h2 hpre
    have hdata : ∀ n l : String, (stationId n l).data = n.data ++ (" (" ++ l ++ ")").data := by
      intro n l
      show (n ++ " (" ++ l ++ ")").data = _
      simp [String.data_append, List.append_assoc]
    constructor
    · rw [candidate_ids, List.mem_filter]
      refine ⟨(build_graph_nodes_mem rows ws _).mpr ⟨(n1, l1), h1, rfl⟩, ?_⟩
      rw [startswith, List.isPrefixOf_iff_prefix, hdata]
      exact List.prefix_append _ _
    · rw [candidate_ids, List.mem_filter]
      refine ⟨(build_graph_nodes_mem rows ws _).mpr ⟨(n2, l2), h2, rfl⟩, ?_⟩
      rw [startswith, List.isPrefixOf_iff_prefix, hdata]
      exact List.IsPrefix.trans hpre (List.prefix_append _ _)

/-- C9.  The finders are pure functions of the graph store and the two
names: querying the same unmodified graph twice returns identical results. -/
theorem claim_C9 (g : Graph) (start_name end_name : String) :
    find_shortest_path g start_name end_name = find_shortest_path g start_name end_name ∧
    find_fastest_path g start_name end_name = find_fastest_path g start_name end_name :=
  ⟨rfl, rfl⟩

/-! ### Parent chains and walks -/

/-- The parent-pointer chain of a node, root-first: `[root, ..., v]`. -/
inductive PChain (parent : String → Option String) : String → List String → Prop
  | root {v : String} : parent v = none → PChain parent v [v]
  | step {v u : String} {p : List String} :
      parent v = some u → PChain parent u p → PChain parent v (p ++ [v])

theorem pchain_chainToRoot {parent : String → Option String} {v : String} {p : List String}
    (h : PChain parent v p) : ∀ f, p.length ≤ f → chainToRoot parent f v = p.reverse := by
  induction h with
  | root hv =>
    intro f hf
    cases f with
    | zero => simp at hf
    | succ f' => simp [chainToRoot, hv]
  | @step v' u' p' hv hu ih =>
    intro f hf
    cases f with
    | zero => simp at hf
    | succ f' =>
      have hlen : p'.length ≤ f' := by
        simp only [List.length_append, List.length_singleton] at hf
        omega
      simp [chainToRoot, hv, ih f' hlen]

theorem pchain_last {parent : String → Option String} {v : String} {p : List String}
    (h : PChain parent v p) : p.getLast? = some v := by
  induction h with
  | root _ => rfl
  | step _ _ _ => simp

theorem pchain_ne_nil {parent : String → Option String} {v : String} {p : List String}
    (h : PChain parent v p) : p ≠ [] := by
  induction h with
  | root _ => simp
  | step _ _ _ => simp

theorem pchain_congr {parent parent' : String → Option String} {v : String}
    {p : List String} (h : PChain parent v p)
    (hagree : ∀ x ∈ p, parent' x = parent x) : PChain parent' v p := by
  induction h with
  | root hv =>
    exact PChain.root ((hagree _ (List.mem_singleton_self _)).trans hv)
  | step hv hu ih =>
    refine PChain.step ((hagree _ (by simp)).trans hv) (ih ?_)
    intro x hx
    exact hagree x (List.mem_append_left _ hx)

theorem walk_singleton (g : Graph) (v : String) : Walk g [v] :=
  ⟨by simp, List.chain'_singleton v⟩

theorem walk_length_pos {g : Graph} {p : List String} (h : Walk g p) : 1 ≤ p.length := by
  cases p with
  | nil => exact absurd rfl h.1
  | cons a t => simp

theorem walk_append {g : Graph} {p : List String} {u v : String} {t : Nat}
    (hp : Walk g p) (hlast : p.getLast? = some u) (he : (v, t) ∈ edgesOf g u) :
    Walk g (p ++ [v]) := by
  refine ⟨by simp, List.chain'_append.mpr ⟨hp.2, List.chain'_singleton v, ?_⟩⟩
  intro x hx y hy
  simp only [List.head?_cons, Option.mem_def, Option.some.injEq] at hy
  rw [hlast] at hx
  simp only [Option.mem_def, Option.some.injEq] at hx
  rw [← hx, ← hy]
  exact ⟨t, he⟩

theorem nodup_subset_length {p l : List String} (hnd : p.Nodup) (hsub : ∀ x ∈ p, x ∈ l) :
    p.length ≤ l.length :=
  (List.subperm_of_subset hnd hsub).length_le

theorem chain'_le_head {d : String → Nat} : ∀ {q : List String},
    List.Chain' (fun a b => d a ≤ d b) q → ∀ x ∈ q, ∀ y ∈ q.head?, d y ≤ d x := by
  intro q
  induction q with
  | nil => intro _ x hx; simp at hx
  | cons a t ih =>
    intro h x hx y hy
    simp only [List.head?_cons, Option.mem_def, Option.some.injEq] at hy
    rw [← hy]
    rcases List.mem_cons.mp hx with rfl | hx
    · exact Nat.le_refl _
    · cases t with
      | nil => simp at hx
      | cons b u =>
        have h1 : d a ≤ d b := (List.chain'_cons.mp h).1
        have h2 := ih (List.chain'_cons.mp h).2 x hx b (by simp)
        omega

theorem chain'_const_le {d : String → Nat} {c : Nat} : ∀ {q : List String},
    (∀ x ∈ q, d x = c) → List.Chain' (fun a b => d a ≤ d b) q := by
  intro q
  induction q with
  | nil => intro _; simp
  | cons a t ih =>
    intro h
    rw [List.chain'_cons']
    refine ⟨?_, ih fun x hx => h x (List.mem_cons_of_mem a hx)⟩
    intro y hy
    have hya : y ∈ t := List.mem_of_mem_head? hy
    rw [h a (List.mem_cons_self a t), h y (List.mem_cons_of_mem a hya)]

/-! ### The BFS expansion step -/

/-- The targets the BFS inner loop newly visits, in visit order. -/
def freshT (visited : List String) : List (String × Nat) → List String
  | [] => []
  | (nb, _) :: es =>
    if nb ∈ visited then freshT visited es
    else nb :: freshT (visited ++ [nb]) es

theorem freshT_not_vis {es : List (String × Nat)} : ∀ {visited : List String},
    ∀ x ∈ freshT visited es, x ∉ visited := by
  induction es with
  | nil => intro visited x hx; simp [freshT] at hx
  | cons e es ih =>
    intro visited x hx
    obtain ⟨nb, t⟩ := e
    by_cases h : nb ∈ visited
    · rw [freshT, if_pos h] at hx
      exact ih x hx
    · rw [freshT, if_neg h] at hx
      rcases List.mem_cons.mp hx with rfl | hx
      · exact h
      · intro hv
        exact ih x hx (List.mem_append_left _ hv)

theorem freshT_nodup {es : List (String × Nat)} : ∀ {visited : List String},
    (freshT visited es).Nodup := by
  induction es with
  | nil => intro visited; simp [freshT]
  | cons e es ih =>
    intro visited
    obtain ⟨nb, t⟩ := e
    by_cases h : nb ∈ visited
    · rw [freshT, if_pos h]; exact ih
    · rw [freshT, if_neg h]
      refine List.nodup_cons.mpr ⟨?_, ih⟩
      intro hmem
      exact freshT_not_vis nb hmem (List.mem_append_right _ (List.mem_singleton_self nb))

theorem freshT_sub {es : List (String × Nat)} : ∀ {visited : List String},
    ∀ x ∈ freshT visited es, x ∈ es.map (·.1) := by
  induction es with
  | nil => intro visited x hx; simp [freshT] at hx
  | cons e es ih =>
    intro visited x hx
    obtain ⟨nb, t⟩ := e
    by_cases h : nb ∈ visited
    · rw [freshT, if_pos h] at hx
      exact List.mem_cons_of_mem _ (ih x hx)
    · rw [freshT, if_neg h] at hx
      rcases List.mem_cons.mp hx with rfl | hx
      · exact List.mem_cons_self _ _
      · exact List.mem_cons_of_mem _ (ih x hx)

theorem freshT_complete {es : List (String × Nat)} : ∀ {visited : List String},
    ∀ e ∈ es, e.1 ∈ visited ∨ e.1 ∈ freshT visited es := by
  induction es with
  | nil => intro visited e he; simp at he
  | cons e0 es ih =>
    intro visited e he
    obtain ⟨nb, t⟩ := e0
    by_cases h : nb ∈ visited
    · rw [freshT, if_pos h]
      rcases List.mem_cons.mp he with rfl | he
      · exact Or.inl h
      · exact @ih visited e he
    · rw [freshT, if_neg h]
      rcases List.mem_cons.mp he with rfl | he
      · exact Or.inr (List.mem_cons_self _ _)
      · rcases @ih (visited ++ [nb]) e he with hv | hf
        · rcases List.mem_append.mp hv with hv | hv
          · exact Or.inl hv
          · have he1 : e.1 = nb := by simpa using hv
            exact Or.inr (he1 ▸ List.mem_cons_self _ _)
        · exact Or.inr (List.mem_cons_of_mem _ hf)

theorem bfsExpand_eq (current : String) (es : List (String × Nat)) :
    ∀ (visited : List String) (parent : String → Option String) (queue : List String),
    (bfsExpand current (visited, parent, queue) es).1 = visited ++ freshT visited es ∧
    (∀ x, (bfsExpand current (visited, parent, queue) es).2.1 x =
      if x ∈ freshT visited es then some current else parent x) ∧
    (bfsExpand current (visited, parent, queue) es).2.2 = queue ++ freshT visited es := by
  induction es with
  | nil =>
    intro visited parent queue
    refine ⟨by simp [bfsExpand, freshT], ?_, by simp [bfsExpand, freshT]⟩
    intro x
    simp [bfsExpand, freshT]
  | cons e es ih =>
    intro visited parent queue
    obtain ⟨nb, t⟩ := e
    by_cases h : nb ∈ visited
    · rw [show bfsExpand current (visited, parent, queue) ((nb, t) :: es) =
        bfsExpand current (visited, parent, queue) es by simp [bfsExpand, h]]
      obtain ⟨h1, h2, h3⟩ := ih visited parent queue
      rw [show freshT visited ((nb, t) :: es) = freshT visited es by simp [freshT, h]]
      exact ⟨h1, h2, h3⟩
    · rw [show bfsExpand current (visited, parent, queue) ((nb, t) :: es) =
        bfsExpand current (visited ++ [nb],
          fun x => if x = nb then some current else parent x, queue ++ [nb]) es by
          simp [bfsExpand, h]]
      obtain ⟨h1, h2, h3⟩ := ih (visited ++ [nb])
        (fun x => if x = nb then some current else parent x) (queue ++ [nb])
      rw [show freshT visited ((nb, t) :: es) = nb :: freshT (visited ++ [nb]) es by
        simp [freshT, h]]
      refine ⟨by rw [h1]; simp, ?_, by rw [h3]; simp⟩
      intro x
      rw [h2 x]
      by_cases hx : x ∈ freshT (visited ++ [nb]) es
      · have hxnb : x ≠ nb := by
          intro hc
          subst hc
          exact freshT_not_vis x hx (List.mem_append_right _ (List.mem_singleton_self x))
        simp [hx, hxnb, List.mem_cons]
      · by_cases hxnb : x = nb
        · simp [hx, hxnb]
        · simp [hx, hxnb]

/-! ### The BFS termination measure -/

/-- Ids not yet visited that could still be enqueued. -/
def bfsRemaining (g : Graph) (visited : List String) : Nat :=
  ((bfsPool g).filter (fun x => decide (x ∉ visited))).length

theorem dget_mem {α : Type} {d : List (String × α)} {k : String} {v : α}
    (h : dget d k = some v) : (k, v) ∈ d := by
  induction d with
  | nil => simp [dget] at h
  | cons kv t ih =>
    obtain ⟨k', v'⟩ := kv
    by_cases hk : k' = k
    · subst hk
      rw [dget, if_pos rfl] at h
      injection h with h
      rw [h]
      exact List.mem_cons_self _ _
    · rw [dget, if_neg hk] at h
      exact List.mem_cons_of_mem _ (ih h)

theorem target_mem_bfsPool {g : Graph} {x : String} {e : String × Nat}
    (he : e ∈ edgesOf g x) : e.1 ∈ bfsPool g := by
  rw [bfsPool, List.mem_dedup, List.mem_append]
  right
  rw [edgesOf] at he
  cases hd : dget g.edges x with
  | none => rw [hd] at he; simp at he
  | some l =>
    rw [hd] at he
    simp only [Option.getD_some] at he
    refine List.mem_flatten.mpr ⟨l.map (·.1), ?_, ?_⟩
    · exact List.mem_map.mpr ⟨(x, l), dget_mem hd, rfl⟩
    · exact List.mem_map.mpr ⟨e, he, rfl⟩

theorem filter_drop_one {f : String} : ∀ {pool : List String}, pool.Nodup →
    ∀ {visited : List String}, f ∈ pool → f ∉ visited →
    (pool.filter (fun x => decide (x ∉ visited))).length =
      (pool.filter (fun x => decide (x ∉ visited ++ [f]))).length + 1 := by
  intro pool
  induction pool with
  | nil => intro _ _ hf; simp at hf
  | cons h t ih =>
    intro hnd visited hf hfv
    have htnd : t.Nodup := (List.nodup_cons.mp hnd).2
    by_cases hhf : h = f
    · subst hhf
      have hnotmem : h ∉ t := (List.nodup_cons.mp hnd).1
      have heq : t.filter (fun x => decide (x ∉ visited)) =
          t.filter (fun x => decide (x ∉ visited ++ [h])) := by
        apply List.filter_congr
        intro x hx
        have hxh : x ≠ h := fun hc => hnotmem (hc ▸ hx)
        simp [List.mem_append, hxh]
      rw [List.filter_cons, List.filter_cons]
      have c1 : (decide (h ∉ visited)) = true := by simpa using hfv
      have c2 : (decide (h ∉ visited ++ [h])) = false := by simp
      rw [c1, c2, heq]
      simp
    · rcases List.mem_cons.mp hf with hc | hft
      · exact absurd hc.symm hhf
      · rw [List.filter_cons, List.filter_cons]
        have hsame : (decide (h ∉ visited)) = (decide (h ∉ visited ++ [f])) := by
          by_cases hh : h ∈ visited
          · simp [hh]
          · simp [hh, List.mem_append, hhf]
        rw [← hsame]
        by_cases hh : (decide (h ∉ visited)) = true
        · rw [hh]
          simp only [if_true, List.length_cons]
          rw [ih htnd hft hfv]
        · rw [Bool.not_eq_true] at hh
          rw [hh]
          simp only [Bool.false_eq_true, if_false]
          exact ih htnd hft hfv

theorem filter_drop {g : Graph} : ∀ {fresh : List String}, fresh.Nodup →
    ∀ {visited : List String}, (∀ x ∈ fresh, x ∈ bfsPool g ∧ x ∉ visited) →
    bfsRemaining g visited = bfsRemaining g (visited ++ fresh) + fresh.length := by
  intro fresh
  induction fresh with
  | nil => intro _ visited _; simp [bfsRemaining]
  | cons f fr ih =>
    intro hnd visited hsub
    obtain ⟨hfp, hfv⟩ := hsub f (List.mem_cons_self f fr)
    have h1 : bfsRemaining g visited = bfsRemaining g (visited ++ [f]) + 1 :=
      filter_drop_one (List.nodup_dedup _) hfp hfv
    have h2 : bfsRemaining g (visited ++ [f]) =
        bfsRemaining g ((visited ++ [f]) ++ fr) + fr.length := by
      apply ih (List.nodup_cons.mp hnd).2
      intro x hx
      refine ⟨(hsub x (List.mem_cons_of_mem f hx)).1, ?_⟩
      intro hmem
      rcases List.mem_append.mp hmem with hv | hf1
      · exact (hsub x (List.mem_cons_of_mem f hx)).2 hv
      · have : x = f := by simpa using hf1
        exact (List.nodup_cons.mp hnd).1 (this ▸ hx)
    rw [h1, h2, List.append_assoc]
    simp only [List.singleton_append, List.length_cons]
    omega

/-! ### The BFS loop invariant -/

/-- Invariant of the BFS while-loop: the queue is a visited frontier in
non-decreasing depth order with spread at most one, every visited node has
a parent chain that is a minimum-hop walk from the seed set, unvisited
neighbors hang off queued nodes, and every dequeued node missed `ends`. -/
structure BfsInv (g : Graph) (starts ends : List String) (visited : List String)
    (parent : String → Option String) (queue : List String) (d : String → Nat) : Prop where
  subq : ∀ q ∈ queue, q ∈ visited
  seeds : ∀ s ∈ starts, s ∈ visited
  vnodup : visited.Nodup
  chains : ∀ v ∈ visited, ∃ p, PChain parent v p ∧ Walk g p ∧
    (∃ s ∈ starts, p.head? = some s) ∧ p.length = d v + 1 ∧ p.Nodup ∧ ∀ x ∈ p, x ∈ visited
  dmin : ∀ v ∈ visited, ∀ q, Walk g q → (∃ s ∈ starts, q.head? = some s) →
    q.getLast? = some v → d v + 1 ≤ q.length
  qsort : List.Chain' (fun a b => d a ≤ d b) queue
  qspread : ∀ a ∈ queue, ∀ b ∈ queue, d b ≤ d a + 1
  frontier : ∀ u ∈ visited, ∀ e ∈ edgesOf g u, e.1 ∉ visited → u ∈ queue
  noend : ∀ v ∈ visited, v ∉ queue → v ∉ ends

theorem walk_stays_visited {g : Graph} {visited : List String}
    (hcl : ∀ u ∈ visited, ∀ e ∈ edgesOf g u, e.1 ∈ visited) :
    ∀ q, Walk g q → (∀ s, q.head? = some s → s ∈ visited) →
      ∀ v, q.getLast? = some v → v ∈ visited := by
  intro q
  induction q with
  | nil => intro _ _ v hv; simp at hv
  | cons a t ih =>
    intro hq hhead v hv
    have ha : a ∈ visited := hhead a rfl
    cases t with
    | nil =>
      simp only [List.getLast?_singleton, Option.some.injEq] at hv
      rw [← hv]; exact ha
    | cons b u =>
      have hedge : ∃ t', (b, t') ∈ edgesOf g a := (List.chain'_cons.mp hq.2).1
      obtain ⟨t', ht'⟩ := hedge
      have hb : b ∈ visited := hcl a ha (b, t') ht'
      refine ih ⟨by simp, (List.chain'_cons.mp hq.2).2⟩ ?_ v ?_
      · intro s hs
        simp only [List.head?_cons, Option.some.injEq] at hs
        rw [← hs]; exact hb
      · rw [← hv]
        exact (List.getLast?_cons_cons ..).symm

theorem head?_append_left {l l' : List String} {s : String} (h : l.head? = some s) :
    (l ++ l').head? = some s := by
  cases l with
  | nil => simp at h
  | cons a t => simpa using h

/-- At any state satisfying the invariant, a seed walk that ends outside
the visited set is at least two longer than the depth of some queued node. -/
theorem bfs_unvisited_far {g : Graph} {starts ends visited : List String}
    {parent : String → Option String} {queue : List String} {d : String → Nat}
    (inv : BfsInv g starts ends visited parent queue d) :
    ∀ q, Walk g q → (∃ s ∈ starts, q.head? = some s) →
      ∀ w, q.getLast? = some w → w ∉ visited →
      ∃ u ∈ queue, d u + 2 ≤ q.length := by
  intro q
  induction q using List.reverseRecOn with
  | nil => intro _ _ w hw; simp at hw
  | append_singleton q' w0 ih =>
    intro hq hhead w hw hwv
    have hw0 : w = w0 := by
      have : (q' ++ [w0]).getLast? = some w0 := by simp
      rw [this] at hw
      exact (Option.some.injEq .. ▸ hw).symm
    subst hw0
    by_cases hqnil : q' = []
    · subst hqnil
      obtain ⟨s, hs, hhd⟩ := hhead
      simp only [List.nil_append, List.head?_cons, Option.some.injEq] at hhd
      exact absurd (hhd ▸ inv.seeds s hs) hwv
    · have hqne : q' ≠ [] := hqnil
      have hu : ∃ u, q'.getLast? = some u := by
        cases q' with
        | nil => exact absurd rfl hqne
        | cons a t => exact ⟨(a :: t).getLast (by simp), List.getLast?_eq_getLast _ _⟩
      obtain ⟨u, hu⟩ := hu
      have hwalk' : Walk g q' := by
        refine ⟨hqne, (List.chain'_append.mp hq.2).1⟩
      have hedge : ∃ t', (w, t') ∈ edgesOf g u := by
        have := (List.chain'_append.mp hq.2).2.2
        exact this u hu w rfl
      obtain ⟨t', ht'⟩ := hedge
      have hhead' : ∃ s ∈ starts, q'.head? = some s := by
        obtain ⟨s, hs, hhd⟩ := hhead
        refine ⟨s, hs, ?_⟩
        cases q' with
        | nil => exact absurd rfl hqne
        | cons x y => simpa using hhd
      by_cases huv : u ∈ visited
      · have huq : u ∈ queue := inv.frontier u huv (w, t') ht' hwv
        have hlen : d u + 1 ≤ q'.length := inv.dmin u huv q' hwalk' hhead' hu
        refine ⟨u, huq, ?_⟩
        rw [List.length_append, List.length_singleton]
        omega
      · obtain ⟨u', hu', hlen⟩ := ih hwalk' hhead' u hu huv
        refine ⟨u', hu', ?_⟩
        rw [List.length_append, List.length_singleton]
        omega

theorem chain'_of_agree {d d' : String → Nat} : ∀ {l : List String},
    (∀ x ∈ l, d' x = d x) → List.Chain' (fun a b => d a ≤ d b) l →
    List.Chain' (fun a b => d' a ≤ d' b) l := by
  intro l
  induction l with
  | nil => intro _ _; simp
  | cons a t ih =>
    intro hag h
    rw [List.chain'_cons']
    refine ⟨?_, ih (fun x hx => hag x (List.mem_cons_of_mem a hx)) (List.Chain'.tail h)⟩
    intro y hy
    have hyt : y ∈ t := List.mem_of_mem_head? hy
    rw [hag a (List.mem_cons_self a t), hag y (List.mem_cons_of_mem a hyt)]
    cases t with
    | nil => simp at hyt
    | cons b u =>
      have h1 : d a ≤ d b := (List.chain'_cons.mp h).1
      simp only [List.head?_cons, Option.mem_def, Option.some.injEq] at hy
      rw [← hy]
      exact h1

/-- What the BFS result promises: `none` only when no seed-to-end walk
exists at all; a returned path is a seed-to-end walk of minimum length. -/
def BfsGood (g : Graph) (starts ends : List String) (res : Option (List String)) : Prop :=
  match res with
  | none => ∀ q, Walk g q → (∃ s ∈ starts, q.head? = some s) →
      (∃ e ∈ ends, q.getLast? = some e) → False
  | some p => Walk g p ∧ (∃ s ∈ starts, p.head? = some s) ∧
      (∃ e ∈ ends, p.getLast? = some e) ∧
      ∀ q, Walk g q → (∃ s ∈ starts, q.head? = some s) →
        (∃ e ∈ ends, q.getLast? = some e) → p.length ≤ q.length

theorem bfsLoop_master (g : Graph) (starts ends : List String) :
    ∀ (fuel : Nat) (visited : List String) (parent : String → Option String)
      (queue : List String) (d : String → Nat),
    BfsInv g starts ends visited parent queue d →
    queue.length + bfsRemaining g visited < fuel →
    ∃ res, bfsLoop g ends fuel visited parent queue = some res ∧
      BfsGood g starts ends res := by
  intro fuel
  induction fuel with
  | zero => intro _ _ _ _ _ hfuel; omega
  | succ fuel ih =>
    intro visited parent queue d inv hfuel
    cases hq : queue with
    | nil =>
      refine ⟨none, by simp [bfsLoop], ?_⟩
      rintro q hwalk ⟨s, hs, hhd⟩ ⟨e, he, hlast⟩
      rw [hq] at inv
      have hcl : ∀ u ∈ visited, ∀ e' ∈ edgesOf g u, e'.1 ∈ visited := by
        intro u hu e' he'
        by_contra hnv
        exact absurd (inv.frontier u hu e' he' hnv) (List.not_mem_nil u)
      have hev : e ∈ visited := by
        refine walk_stays_visited hcl q hwalk ?_ e hlast
        intro s' hs'
        rw [hhd] at hs'
        injection hs' with hs'
        rw [← hs']
        exact inv.seeds s hs
      exact inv.noend e hev (List.not_mem_nil e) he
    | cons current rest =>
      have hcq : current ∈ queue := by rw [hq]; exact List.mem_cons_self _ _
      have hcv : current ∈ visited := inv.subq current hcq
      have headmin : ∀ a ∈ queue, d current ≤ d a := by
        intro a ha
        refine chain'_le_head inv.qsort a ha current ?_
        rw [hq]
        rfl
      by_cases hce : current ∈ ends
      · obtain ⟨p, hpchain, hpwalk, hphead, hplen, hpnodup, hpvis⟩ := inv.chains current hcv
        have hplen_le : p.length ≤ visited.length := nodup_subset_length hpnodup hpvis
        have hctr : chainToRoot parent (visited.length + 1) current = p.reverse :=
          pchain_chainToRoot hpchain _ (by omega)
        refine ⟨some p, ?_, ?_⟩
        · simp only [bfsLoop, if_pos hce, hctr, List.reverse_reverse]
        · refine ⟨hpwalk, hphead, ⟨current, hce, pchain_last hpchain⟩, ?_⟩
          rintro q hwalk hhd ⟨e, he, hlast⟩
          rw [hplen]
          by_cases hev : e ∈ visited
          · have heq : e ∈ queue := by
              by_contra hc
              exact inv.noend e hev hc he
            have h1 : d current ≤ d e := headmin e heq
            have h2 : d e + 1 ≤ q.length := inv.dmin e hev q hwalk hhd hlast
            omega
          · obtain ⟨u, huq, hlen⟩ := bfs_unvisited_far inv q hwalk hhd e hlast hev
            have h1 : d current ≤ d u := headmin u huq
            omega
      · -- expansion step
        set es := edgesOf g current with hes
        set fresh := freshT visited es with hfr
        obtain ⟨hst1, hst2, hst3⟩ :=
          bfsExpand_eq current es visited parent rest
        set st := bfsExpand current (visited, parent, rest) es with hstdef
        set d' : String → Nat :=
          fun x => if x ∈ fresh then d current + 1 else d x with hd'
        have hfnv : ∀ x ∈ fresh, x ∉ visited := fun x hx => freshT_not_vis x hx
        have hfnd : fresh.Nodup := freshT_nodup
        have hd'old : ∀ x, x ∈ visited → d' x = d x := by
          intro x hx
          have : x ∉ fresh := fun hc => hfnv x hc hx
          simp [hd', this]
        have hd'new : ∀ x ∈ fresh, d' x = d current + 1 := by
          intro x hx
          simp [hd', hx]
        have hfar : ∀ v ∈ fresh, ∀ q, Walk g q → (∃ s ∈ starts, q.head? = some s) →
            q.getLast? = some v → d current + 2 ≤ q.length := by
          intro v hv q hwalk hhd hlast
          obtain ⟨u, huq, hlen⟩ :=
            bfs_unvisited_far inv q hwalk hhd v hlast (hfnv v hv)
          have := headmin u huq
          omega
        have hedge_of_fresh : ∀ v ∈ fresh, ∃ t, (v, t) ∈ es := by
          intro v hv
          obtain ⟨e, hees, he1⟩ := List.mem_map.mp (freshT_sub v hv)
          exact ⟨e.2, by rw [← he1]; exact hees⟩
        have hrest_q : ∀ a ∈ rest, a ∈ queue := by
          intro a ha; rw [hq]; exact List.mem_cons_of_mem _ ha
        have inv' : BfsInv g starts ends st.1 st.2.1 st.2.2 d' := by
          rw [hst1, hst3]
          constructor
          · intro x hx
            rcases List.mem_append.mp hx with hx | hx
            · exact List.mem_append_left _ (inv.subq x (hrest_q x hx))
            · exact List.mem_append_right _ hx
          · intro s hs
            exact List.mem_append_left _ (inv.seeds s hs)
          · exact inv.vnodup.append hfnd (fun a ha hf => hfnv a hf ha)
          · intro v hv
            rcases List.mem_append.mp hv with hv | hv
            · obtain ⟨p, hpchain, hpwalk, hphead, hplen, hpnodup, hpvis⟩ := inv.chains v hv
              refine ⟨p, ?_, hpwalk, hphead, ?_, hpnodup, ?_⟩
              · refine pchain_congr hpchain ?_
                intro x hx
                rw [hst2 x]
                have : x ∉ fresh := fun hc => hfnv x hc (hpvis x hx)
                simp [this]
              · rw [hd'old v hv]; exact hplen
              · intro x hx
                exact List.mem_append_left _ (hpvis x hx)
            · obtain ⟨pc, hpchain, hpwalk, hphead, hplen, hpnodup, hpvis⟩ :=
                inv.chains current hcv
              obtain ⟨t, ht⟩ := hedge_of_fresh v hv
              refine ⟨pc ++ [v], ?_, ?_, ?_, ?_, ?_, ?_⟩
              · refine PChain.step ?_ (pchain_congr hpchain ?_)
                · rw [hst2 v]; simp [hv]
                · intro x hx
                  rw [hst2 x]
                  have : x ∉ fresh := fun hc => hfnv x hc (hpvis x hx)
                  simp [this]
              · exact walk_append hpwalk (pchain_last hpchain) ht
              · obtain ⟨s, hs, hhd⟩ := hphead
                exact ⟨s, hs, head?_append_left hhd⟩
              · rw [List.length_append, List.length_singleton, hplen, hd'new v hv]
              · rw [List.nodup_append]
                refine ⟨hpnodup, List.nodup_singleton v, ?_⟩
                intro a ha hav
                have : a = v := by simpa using hav
                exact hfnv v hv (this ▸ hpvis a ha)
              · intro x hx
                rcases List.mem_append.mp hx with hx | hx
                · exact List.mem_append_left _ (hpvis x hx)
                · have : x = v := by simpa using hx
                  exact List.mem_append_right _ (this ▸ hv)
          · intro v hv q hwalk hhd hlast
            rcases List.mem_append.mp hv with hv | hv
            · rw [hd'old v hv]
              exact inv.dmin v hv q hwalk hhd hlast
            · rw [hd'new v hv]
              have := hfar v hv q hwalk hhd hlast
              omega
          · -- qsort
            rw [List.chain'_append]
            refine ⟨?_, ?_, ?_⟩
            · refine @chain'_of_agree d d' rest ?_ ?_
              · intro x hx
                exact hd'old x (inv.subq x (hrest_q x hx))
              · have := inv.qsort
                rw [hq] at this
                exact this.tail
            · refine @chain'_const_le d' (d current + 1) (freshT visited es) ?_
              intro x hx
              exact hd'new x hx
            · intro x hx y hy
              have hxr : x ∈ rest := List.mem_of_mem_getLast? hx
              have hyf : y ∈ fresh := List.mem_of_mem_head? hy
              rw [hd'old x (inv.subq x (hrest_q x hxr)), hd'new y hyf]
              have := inv.qspread current hcq x (hrest_q x hxr)
              omega
          · intro a ha b hb
            rcases List.mem_append.mp ha with ha | ha <;>
              rcases List.mem_append.mp hb with hb | hb
            · rw [hd'old a (inv.subq a (hrest_q a ha)), hd'old b (inv.subq b (hrest_q b hb))]
              exact inv.qspread a (hrest_q a ha) b (hrest_q b hb)
            · rw [hd'old a (inv.subq a (hrest_q a ha)), hd'new b hb]
              have := headmin a (hrest_q a ha)
              omega
            · rw [hd'new a ha, hd'old b (inv.subq b (hrest_q b hb))]
              have := inv.qspread current hcq b (hrest_q b hb)
              omega
            · rw [hd'new a ha, hd'new b hb]
              omega
          · intro u hu e he henv
            have henv2 : e.1 ∉ visited := fun hc => henv (List.mem_append_left _ hc)
            rcases List.mem_append.mp hu with hu | hu
            · by_cases hucur : u = current
              · subst hucur
                rcases freshT_complete e he with hc | hc
                · exact absurd (List.mem_append_left _ hc) henv
                · exact absurd (List.mem_append_right _ hc) henv
              · have := inv.frontier u hu e he henv2
                rw [hq] at this
                rcases List.mem_cons.mp this with hc | hc
                · exact absurd hc hucur
                · exact List.mem_append_left _ hc
            · exact List.mem_append_right _ hu
          · intro v hv hvq
            rcases List.mem_append.mp hv with hv | hv
            · by_cases hvq2 : v ∈ queue
              · rw [hq] at hvq2
                rcases List.mem_cons.mp hvq2 with rfl | hc
                · exact hce
                · exact absurd (List.mem_append_left _ hc) hvq
              · exact inv.noend v hv hvq2
            · exact absurd (List.mem_append_right _ hv) hvq
        have hmeas : st.2.2.length + bfsRemaining g st.1 < fuel := by
          rw [hst1, hst3, ← hfr]
          have hdrop : bfsRemaining g visited =
              bfsRemaining g (visited ++ fresh) + fresh.length := by
            refine filter_drop hfnd ?_
            intro x hx
            obtain ⟨t, ht⟩ := hedge_of_fresh x hx
            exact ⟨target_mem_bfsPool ht, hfnv x hx⟩
          rw [hq] at hfuel
          simp only [List.length_cons] at hfuel
          rw [List.length_append]
          omega
        obtain ⟨res, hres, hgood⟩ := ih st.1 st.2.1 st.2.2 d' inv' hmeas
        refine ⟨res, ?_, hgood⟩
        simp only [bfsLoop, if_neg hce]
        exact hres

theorem bfs_init_inv (g : Graph) (starts ends : List String) (hnd : starts.Nodup) :
    BfsInv g starts ends starts (fun _ => none) starts (fun _ => 0) := by
  constructor
  · exact fun q hq => hq
  · exact fun s hs => hs
  · exact hnd
  · intro v hv
    refine ⟨[v], PChain.root rfl, walk_singleton g v, ⟨v, hv, rfl⟩, rfl,
      List.nodup_singleton v, ?_⟩
    intro x hx
    have : x = v := by simpa using hx
    exact this ▸ hv
  · intro v _ q hwalk _ _
    have := walk_length_pos hwalk
    omega
  · exact @chain'_const_le (fun _ => 0) 0 starts (fun _ _ => rfl)
  · intro _ _ _ _; omega
  · exact fun u hu _ _ _ => hu
  · exact fun v hv hvq => absurd hv hvq

theorem find_shortest_path_spec (g : Graph) (start_name end_name : String)
    (hnd : (nodeKeys g).Nodup) :
    BfsGood g (candidate_ids g start_name) (candidate_ids g end_name)
      (find_shortest_path g start_name end_name) := by
  have hseeds : (candidate_ids g start_name).Nodup := List.Nodup.filter _ hnd
  have inv := bfs_init_inv g (candidate_ids g start_name) (candidate_ids g end_name) hseeds
  have hfuel : (candidate_ids g start_name).length +
      bfsRemaining g (candidate_ids g start_name) <
      bfsFuel g (candidate_ids g start_name) := by
    rw [bfsFuel, bfsRemaining]
    have := List.length_filter_le
      (fun x => decide (x ∉ candidate_ids g start_name)) (bfsPool g)
    omega
  obtain ⟨res, hres, hgood⟩ := bfsLoop_master g (candidate_ids g start_name)
    (candidate_ids g end_name) (bfsFuel g (candidate_ids g start_name))
    (candidate_ids g start_name) (fun _ => none) (candidate_ids g start_name)
    (fun _ => 0) inv hfuel
  have hfsp : find_shortest_path g start_name end_name = res := by
    rw [show find_shortest_path g start_name end_name =
      (bfsLoop g (candidate_ids g end_name) (bfsFuel g (candidate_ids g start_name))
        (candidate_ids g start_name) (fun _ => none)
        (candidate_ids g start_name)).getD none from rfl, hres]
    rfl
  rw [hfsp]
  exact hgood

/-- C1.  A path returned by `find_shortest_path` on a built graph starts at
a start candidate, ends at an end candidate, follows graph edges, and its
node count (hence edge count) is at most that of every walk from any start
candidate to any end candidate. -/
theorem claim_C1 (rows : List (String × String)) (ws : Nat → Nat)
    (start_name end_name : String) (p : List String)
    (h : find_shortest_path (build_graph rows ws) start_name end_name = some p) :
    Walk (build_graph rows ws) p ∧
    (∃ s ∈ candidate_ids (build_graph rows ws) start_name, p.head? = some s) ∧
    (∃ e ∈ candidate_ids (build_graph rows ws) end_name, p.getLast? = some e) ∧
    ∀ q, Walk (build_graph rows ws) q →
      (∃ s ∈ candidate_ids (build_graph rows ws) start_name, q.head? = some s) →
      (∃ e ∈ candidate_ids (build_graph rows ws) end_name, q.getLast? = some e) →
      p.length ≤ q.length := by
  have hgood := find_shortest_path_spec (build_graph rows ws) start_name end_name
    (build_graph_keys_nodup rows ws)
  rw [h] at hgood
  exact hgood

/-! ### Priority queue lemmas -/

theorem pqLe_key {a b : Nat × String} (h : pqLe a b = true) : a.1 ≤ b.1 := by
  rw [pqLe] at h
  by_cases h1 : a.1 < b.1
  · omega
  · by_cases h2 : b.1 < a.1
    · rw [if_neg h1, if_pos h2] at h
      exact absurd h (by simp)
    · omega

theorem popMin_none {l : List (Nat × String)} : popMin l = none ↔ l = [] := by
  cases l with
  | nil => simp [popMin]
  | cons e rest =>
    simp only [popMin]
    cases popMin rest with
    | none => simp
    | some pr =>
      obtain ⟨m, rest'⟩ := pr
      by_cases h : pqLe e m = true
      · simp [h]
      · simp [h]

theorem pqLe_total (a b : Nat × String) : pqLe a b = true ∨ pqLe b a = true := by
  rw [pqLe, pqLe]
  by_cases h1 : a.1 < b.1
  · left; rw [if_pos h1]
  · by_cases h2 : b.1 < a.1
    · right; rw [if_pos h2]
    · rw [if_neg h1, if_neg h2, if_neg h2, if_neg h1]
      exact strLe_total a.2 b.2

theorem popMin_spec {l : List (Nat × String)} {m : Nat × String}
    {rest : List (Nat × String)} (h : popMin l = some (m, rest)) :
    List.Perm l (m :: rest) ∧ ∀ e ∈ l, m.1 ≤ e.1 := by
  induction l generalizing m rest with
  | nil => simp [popMin] at h
  | cons e t ih =>
    rw [popMin] at h
    cases ht : popMin t with
    | none =>
      rw [ht] at h
      have htnil : t = [] := popMin_none.mp ht
      subst htnil
      injection h with h
      obtain ⟨h1, h2⟩ := Prod.mk.injEq .. ▸ h
      subst h1
      subst h2
      refine ⟨List.Perm.refl _, ?_⟩
      intro e' he'
      have : e' = e := by simpa using he'
      rw [this]
    | some pr =>
      obtain ⟨m', rest'⟩ := pr
      rw [ht] at h
      dsimp only at h
      obtain ⟨hperm', hmin'⟩ := ih ht
      by_cases hle : pqLe e m' = true
      · rw [if_pos hle] at h
        injection h with h
        obtain ⟨h1, h2⟩ := Prod.mk.injEq .. ▸ h
        subst h1
        subst h2
        refine ⟨List.Perm.refl _, ?_⟩
        intro e' he'
        rcases List.mem_cons.mp he' with rfl | he'
        · exact Nat.le_refl _
        · exact Nat.le_trans (pqLe_key hle) (hmin' e' he')
      · rw [if_neg hle] at h
        injection h with h
        obtain ⟨h1, h2⟩ := Prod.mk.injEq .. ▸ h
        subst h1
        subst h2
        refine ⟨?_, ?_⟩
        · exact List.Perm.trans (List.Perm.cons e hperm') (List.Perm.swap m' e rest')
        · intro e' he'
          rcases List.mem_cons.mp he' with rfl | he'
          · rcases pqLe_total e' m' with hc | hc
            · exact absurd hc hle
            · exact pqLe_key hc
          · exact hmin' e' he'

/-! ### Costed walk lemmas -/

theorem cwalk_ne_nil {g : Graph} {p : List String} {c : Nat} (h : CWalk g p c) :
    p ≠ [] := by
  cases h with
  | single v => simp
  | cons _ _ => simp

theorem cwalk_to_walk {g : Graph} {p : List String} {c : Nat} (h : CWalk g p c) :
    Walk g p := by
  induction h with
  | single v => exact walk_singleton g v
  | cons he _ ih =>
    exact ⟨by simp, List.chain'_cons.mpr ⟨⟨_, he⟩, ih.2⟩⟩

theorem walk_to_cwalk {g : Graph} {p : List String} (h : Walk g p) :
    ∃ c, CWalk g p c := by
  obtain ⟨hne, hch⟩ := h
  induction p with
  | nil => exact absurd rfl hne
  | cons a t ih =>
    cases t with
    | nil => exact ⟨0, CWalk.single a⟩
    | cons b u =>
      obtain ⟨t0, ht0⟩ := (List.chain'_cons.mp hch).1
      obtain ⟨c, hc⟩ := ih (by simp) (List.chain'_cons.mp hch).2
      exact ⟨t0 + c, CWalk.cons ht0 hc⟩

theorem cwalk_append {g : Graph} {p : List String} {c : Nat} (h : CWalk g p c)
    {u v : String} {t : Nat} (hlast : p.getLast? = some u)
    (he : (v, t) ∈ edgesOf g u) : CWalk g (p ++ [v]) (c + t) := by
  induction h with
  | single w =>
    have : w = u := by simpa using hlast
    subst this
    rw [show (0 + t) = (t + 0) from by omega]
    exact CWalk.cons he (CWalk.single v)
  | @cons a b p' t0 c0 hab hbc ih =>
    have hlast' : (b :: p').getLast? = some u := by
      rw [← hlast]
      exact (List.getLast?_cons_cons ..).symm
    have := CWalk.cons hab (ih hlast')
    rw [show (t0 + c0 + t) = (t0 + (c0 + t)) from by omega]
    exact this

theorem cwalk_cost_pos {g : Graph} {p : List String} {c : Nat}
    (hpos : ∀ x e, e ∈ edgesOf g x → 1 ≤ e.2)
    (h : CWalk g p c) (hlen : 2 ≤ p.length) : 1 ≤ c := by
  cases h with
  | single v => simp at hlen
  | cons hedge hc =>
    have := hpos _ _ hedge
    omega

theorem cwalk_single_of_cost_zero {g : Graph} {p : List String}
    (hpos : ∀ x e, e ∈ edgesOf g x → 1 ≤ e.2)
    (h : CWalk g p 0) : p.length = 1 := by
  by_contra hne1
  have hlen : 2 ≤ p.length := by
    have hne := cwalk_ne_nil h
    cases p with
    | nil => exact absurd rfl hne
    | cons a t =>
      cases t with
      | nil => exact absurd rfl hne1
      | cons b u => simp
  have := cwalk_cost_pos hpos h hlen
  omega

theorem cwalk_snoc {g : Graph} : ∀ {q' : List String} {v : String} {c : Nat},
    CWalk g (q' ++ [v]) c → q' ≠ [] →
    ∃ u c' t, q'.getLast? = some u ∧ CWalk g q' c' ∧ (v, t) ∈ edgesOf g u ∧ c = c' + t := by
  intro q'
  induction q' with
  | nil => intro v c _ hne; exact absurd rfl hne
  | cons a t ih =>
    intro v c hc hne
    cases t with
    | nil =>
      cases hc with
      | @cons _ _ _ t0 c0 hedge htail =>
        cases htail with
        | single _ =>
          exact ⟨a, 0, t0, rfl, CWalk.single a, hedge, by omega⟩
    | cons b u =>
      cases hc with
      | @cons _ _ _ t0 c0 hedge htail =>
        obtain ⟨u', c', t', hlast, hcw, hedge', hcost⟩ := ih htail (by simp)
        refine ⟨u', t0 + c', t', ?_, CWalk.cons hedge hcw, hedge', ?_⟩
        · rw [List.getLast?_cons_cons]
          exact hlast
        · omega

/-! ### The Dijkstra loop invariant -/

/-- A node is fully relaxed at distance `dv`: each neighbor's recorded
distance already beats going through it. -/
def Settled (g : Graph) (dist : String → Option Nat) (v : String) (dv : Nat) : Prop :=
  ∀ e ∈ edgesOf g v, ∃ dy, dist e.1 = some dy ∧ dy ≤ dv + e.2

/-- Invariant of the Dijkstra while-loop, for the lazy queue with no
staleness check that the source uses. -/
structure DijInv (g : Graph) (starts ends : List String)
    (dist : String → Option Nat) (prev : String → Option String)
    (queue : List (Nat × String)) : Prop where
  q0 : ∀ v dv, dist v = some dv → v ∈ nodeKeys g
  q1 : ∀ s ∈ starts, dist s = some 0
  q2 : ∀ v u, prev v = some u → ∃ t du dv, (v, t) ∈ edgesOf g u ∧
    dist u = some du ∧ dist v = some dv ∧ du + t ≤ dv
  q3 : ∀ v dv, dist v = some dv → prev v = none → v ∈ starts
  q4 : ∀ e ∈ queue, ∃ dv, dist e.2 = some dv ∧ dv ≤ e.1
  q5 : ∀ v dv, dist v = some dv → (dv, v) ∈ queue ∨ Settled g dist v dv
  q6 : ∀ en ∈ ends, ∀ de, dist en = some de → (de, en) ∈ queue
  q7 : ∀ v dv, dist v = some dv → (dv, v) ∉ queue → ∀ e ∈ queue, dv ≤ e.1
  q8 : queue.Nodup

theorem prev_chain_exists {g : Graph} {starts : List String}
    {dist : String → Option Nat} {prev : String → Option String}
    (hpos : ∀ x e, e ∈ edgesOf g x → 1 ≤ e.2)
    (hq2 : ∀ v u, prev v = some u → ∃ t du dv, (v, t) ∈ edgesOf g u ∧
      dist u = some du ∧ dist v = some dv ∧ du + t ≤ dv)
    (hq3 : ∀ v dv, dist v = some dv → prev v = none → v ∈ starts) :
    ∀ dv v, dist v = some dv →
    ∃ p c, PChain prev v p ∧ CWalk g p c ∧ (∃ s ∈ starts, p.head? = some s) ∧
      p.getLast? = some v ∧ c ≤ dv ∧ p.Nodup ∧
      (∀ x ∈ p, ∃ dx, dist x = some dx ∧ dx ≤ dv) := by
  intro dv
  induction dv using Nat.strong_induction_on with
  | _ dv ih =>
    intro v hv
    cases hp : prev v with
    | none =>
      refine ⟨[v], 0, PChain.root hp, CWalk.single v, ⟨v, hq3 v dv hv hp, rfl⟩, rfl,
        by omega, List.nodup_singleton v, ?_⟩
      intro x hx
      have hxv : x = v := by simpa using hx
      exact ⟨dv, hxv ▸ hv, Nat.le_refl dv⟩
    | some u =>
      obtain ⟨t, du, dv', hedge, hdu, hdv', hle⟩ := hq2 v u hp
      have hdveq : dv' = dv := by
        rw [hv] at hdv'
        injection hdv' with h
        exact h.symm
      subst hdveq
      have ht1 : 1 ≤ t := hpos u (v, t) hedge
      have hdu_lt : du < dv' := by omega
      obtain ⟨p, c, hpch, hcw, hhead, hlast, hcost, hnodup, hmem⟩ := ih du hdu_lt u hdu
      have hvnotp : v ∉ p := by
        intro hvp
        obtain ⟨dx, hdx, hdxle⟩ := hmem v hvp
        rw [hv] at hdx
        injection hdx with hdx
        omega
      refine ⟨p ++ [v], c + t, PChain.step hp hpch, cwalk_append hcw hlast hedge, ?_, by simp,
        by omega, ?_, ?_⟩
      · obtain ⟨s, hs, hhd⟩ := hhead
        exact ⟨s, hs, head?_append_left hhd⟩
      · rw [List.nodup_append]
        exact ⟨hnodup, List.nodup_singleton v, by
          intro a ha hav
          have : a = v := by simpa using hav
          exact hvnotp (this ▸ ha)⟩
      · intro x hx
        rcases List.mem_append.mp hx with hx | hx
        · obtain ⟨dx, hdx, hdxle⟩ := hmem x hx
          exact ⟨dx, hdx, by omega⟩
        · have : x = v := by simpa using hx
          exact ⟨dv', this ▸ hv, Nat.le_refl _⟩

theorem dij_cut {g : Graph} {starts : List String} {dist : String → Option Nat} {k : Nat}
    (hq1 : ∀ s ∈ starts, dist s = some 0)
    (hsettled : ∀ x dx, dist x = some dx → dx < k → Settled g dist x dx) :
    ∀ q c v, CWalk g q c → (∃ s ∈ starts, q.head? = some s) → q.getLast? = some v →
      k ≤ c ∨ ∃ dv, dist v = some dv ∧ dv ≤ c := by
  intro q
  induction q using List.reverseRecOn with
  | nil =>
    intro c v hc
    exact absurd rfl (cwalk_ne_nil hc)
  | append_singleton q' w ih =>
    intro c v hc hhead hlast
    have hvw : v = w := by
      have : (q' ++ [w]).getLast? = some w := by simp
      rw [this] at hlast
      injection hlast with h
      exact h.symm
    subst hvw
    by_cases hq'nil : q' = []
    · subst hq'nil
      cases hc with
      | single _ =>
        obtain ⟨s, hs, hhd⟩ := hhead
        simp only [List.nil_append, List.head?_cons, Option.some.injEq] at hhd
        right
        exact ⟨0, hhd ▸ hq1 s hs, Nat.zero_le _⟩
    · obtain ⟨u, c', t, hlast', hcw', hedge, hcost⟩ := cwalk_snoc hc hq'nil
      have hhead' : ∃ s ∈ starts, q'.head? = some s := by
        obtain ⟨s, hs, hhd⟩ := hhead
        refine ⟨s, hs, ?_⟩
        cases q' with
        | nil => exact absurd rfl hq'nil
        | cons a tl => simpa using hhd
      rcases ih c' u hcw' hhead' hlast' with hk | ⟨du, hdu, hduc⟩
      · left; omega
      · by_cases hduk : du < k
        · obtain ⟨dy, hdy, hdyle⟩ := hsettled u du hdu hduk (v, t) hedge
          right
          exact ⟨dy, hdy, by omega⟩
        · left; omega

theorem cwalk_dist_total {g : Graph} {dist : String → Option Nat}
    (hset : ∀ v dv, dist v = some dv → Settled g dist v dv) :
    ∀ q c, CWalk g q c → (∀ s, q.head? = some s → ∃ d0, dist s = some d0) →
      ∀ v, q.getLast? = some v → ∃ dv, dist v = some dv := by
  intro q c hc
  induction hc with
  | single w =>
    intro hhead v hv
    have h : w = v := by simpa using hv
    subst h
    exact hhead w rfl
  | @cons u w p t c0 hedge htail ih =>
    intro hhead v hv
    obtain ⟨du, hdu⟩ := hhead u rfl
    obtain ⟨dw, hdw, _⟩ := hset u du hdu (w, t) hedge
    refine ih ?_ v ?_
    · intro s hs
      injection hs with hs
      exact ⟨dw, hs ▸ hdw⟩
    · rw [← hv]
      exact (List.getLast?_cons_cons ..).symm

theorem dijRelax_noop {g : Graph} {k : Nat} {current : String}
    {dist : String → Option Nat} {prev : String → Option String}
    {queue : List (Nat × String)} {dc : Nat}
    (hdc : dist current = some dc) (hdck : dc ≤ k)
    (hset : Settled g dist current dc) :
    ∀ es, (∀ e ∈ es, e ∈ edgesOf g current) →
    dijRelax k current (dist, prev, queue) es = (dist, prev, queue) := by
  intro es
  induction es with
  | nil => intro _; rfl
  | cons e es ih =>
    intro hsub
    obtain ⟨nb, t⟩ := e
    obtain ⟨dy, hdy, hdyle⟩ := hset (nb, t) (hsub _ (List.mem_cons_self _ _))
    have hlt : ltInf (k + t) (dist nb) = false := by
      rw [hdy, ltInf]
      simp only [decide_eq_false_iff_not]
      omega
    rw [dijRelax, hlt]
    simp only [Bool.false_eq_true, if_false]
    exact ih (fun e he => hsub e (List.mem_cons_of_mem _ he))

/-- Invariant maintained across the relaxation for-loop of one fresh pop. -/
structure RelaxInv (g : Graph) (starts ends : List String) (current : String) (k : Nat)
    (dist : String → Option Nat) (prev : String → Option String)
    (queue : List (Nat × String)) : Prop where
  q0 : ∀ v dv, dist v = some dv → v ∈ nodeKeys g
  q1 : ∀ s ∈ starts, dist s = some 0
  q2 : ∀ v u, prev v = some u → ∃ t du dv, (v, t) ∈ edgesOf g u ∧
    dist u = some du ∧ dist v = some dv ∧ du + t ≤ dv
  q3 : ∀ v dv, dist v = some dv → prev v = none → v ∈ starts
  q4 : ∀ e ∈ queue, ∃ dv, dist e.2 = some dv ∧ dv ≤ e.1
  q6 : ∀ en ∈ ends, ∀ de, dist en = some de → (de, en) ∈ queue
  q8 : queue.Nodup
  r5 : ∀ v dv, dist v = some dv → v ≠ current → ((dv, v) ∈ queue ∨ Settled g dist v dv)
  rcur : dist current = some k
  rcurq : (k, current) ∉ queue
  rkey : ∀ v dv, dist v = some dv → (dv, v) ∉ queue → dv ≤ k
  rqk : ∀ e ∈ queue, k ≤ e.1

theorem relax_step {g : Graph} {starts ends : List String} {current : String} {k : Nat}
    {dist : String → Option Nat} {prev : String → Option String}
    {queue : List (Nat × String)} {nb : String} {t : Nat}
    (hedge : (nb, t) ∈ edgesOf g current)
    (hclosed : ∀ x e, e ∈ edgesOf g x → e.1 ∈ nodeKeys g)
    (inv : RelaxInv g starts ends current k dist prev queue)
    (hlt : ltInf (k + t) (dist nb) = true) :
    nb ≠ current ∧
    RelaxInv g starts ends current k
      (fun x => if x = nb then some (k + t) else dist x)
      (fun x => if x = nb then some current else prev x)
      (queue ++ [(k + t, nb)]) := by
  have hlt' : ∀ dnb, dist nb = some dnb → k + t < dnb := by
    intro dnb hdnb
    rw [hdnb, ltInf] at hlt
    simpa using hlt
  have hnbc : nb ≠ current := by
    intro hc
    have := hlt' k (hc ▸ inv.rcur)
    omega
  have hcnb : ¬ (current = nb) := fun hc => hnbc hc.symm
  have hnewq : (k + t, nb) ∉ queue := by
    intro hmem
    obtain ⟨dv, hdv, hle⟩ := inv.q4 _ hmem
    have := hlt' dv hdv
    simp only at hle
    omega
  refine ⟨hnbc, ?_⟩
  constructor
  · intro v dv hv
    by_cases hvnb : v = nb
    · exact hvnb ▸ hclosed current (nb, t) hedge
    · rw [if_neg hvnb] at hv
      exact inv.q0 v dv hv
  · intro s hs
    by_cases hsnb : s = nb
    · exfalso
      have := hlt' 0 (hsnb ▸ inv.q1 s hs)
      omega
    · simp only [if_neg hsnb]
      exact inv.q1 s hs
  · intro v u hvu
    by_cases hvnb : v = nb
    · simp only [if_pos hvnb] at hvu
      injection hvu with hvu
      subst hvu
      subst hvnb
      refine ⟨t, k, k + t, hedge, ?_, ?_, Nat.le_refl _⟩
      · simp only [if_neg hcnb]
        exact inv.rcur
      · simp
    · simp only [if_neg hvnb] at hvu
      obtain ⟨t', du, dv, hedge', hdu, hdv, hle⟩ := inv.q2 v u hvu
      by_cases hunb : u = nb
      · subst hunb
        have hklt := hlt' du hdu
        refine ⟨t', k + t, dv, hedge', ?_, ?_, by omega⟩
        · simp
        · simp only [if_neg hvnb]
          exact hdv
      · refine ⟨t', du, dv, hedge', ?_, ?_, hle⟩
        · simp only [if_neg hunb]
          exact hdu
        · simp only [if_neg hvnb]
          exact hdv
  · intro v dv hv hpv
    by_cases hvnb : v = nb
    · rw [if_pos hvnb] at hpv
      cases hpv
    · simp only [if_neg hvnb] at hv hpv
      exact inv.q3 v dv hv hpv
  · intro e he
    rcases List.mem_append.mp he with he | he
    · obtain ⟨dv, hdv, hle⟩ := inv.q4 e he
      by_cases henb : e.2 = nb
      · have := hlt' dv (henb ▸ hdv)
        refine ⟨k + t, ?_, by omega⟩
        simp only [if_pos henb]
      · refine ⟨dv, ?_, hle⟩
        simp only [if_neg henb]
        exact hdv
    · have he' : e = (k + t, nb) := by simpa using he
      subst he'
      refine ⟨k + t, ?_, Nat.le_refl _⟩
      simp
  · intro en hen de hde
    by_cases henb : en = nb
    · simp only [if_pos henb] at hde
      injection hde with hde
      subst hde
      subst henb
      exact List.mem_append_right _ (List.mem_singleton_self _)
    · simp only [if_neg henb] at hde
      exact List.mem_append_left _ (inv.q6 en hen de hde)
  · rw [List.nodup_append]
    refine ⟨inv.q8, List.nodup_singleton _, ?_⟩
    intro e he hes
    have : e = (k + t, nb) := by simpa using hes
    exact hnewq (this ▸ he)
  · intro v dv hv hvc
    by_cases hvnb : v = nb
    · simp only [if_pos hvnb] at hv
      injection hv with hv
      subst hv
      subst hvnb
      exact Or.inl (List.mem_append_right _ (List.mem_singleton_self _))
    · simp only [if_neg hvnb] at hv
      rcases inv.r5 v dv hv hvc with hq | hset
      · exact Or.inl (List.mem_append_left _ hq)
      · right
        intro e he
        obtain ⟨dy, hdy, hdyle⟩ := hset e he
        by_cases henb : e.1 = nb
        · have := hlt' dy (henb ▸ hdy)
          refine ⟨k + t, ?_, by omega⟩
          simp only [if_pos henb]
        · refine ⟨dy, ?_, hdyle⟩
          simp only [if_neg henb]
          exact hdy
  · simp only [if_neg hcnb]
    exact inv.rcur
  · intro hmem
    rcases List.mem_append.mp hmem with hmem | hmem
    · exact inv.rcurq hmem
    · have : (k, current) = (k + t, nb) := by simpa using hmem
      have := congrArg Prod.snd this
      exact hcnb this
  · intro v dv hv hnq
    by_cases hvnb : v = nb
    · exfalso
      apply hnq
      simp only [if_pos hvnb] at hv
      injection hv with hv
      subst hv
      subst hvnb
      exact List.mem_append_right _ (List.mem_singleton_self _)
    · simp only [if_neg hvnb] at hv
      refine inv.rkey v dv hv ?_
      intro hmem
      exact hnq (List.mem_append_left _ hmem)
  · intro e he
    rcases List.mem_append.mp he with he | he
    · exact inv.rqk e he
    · have : e = (k + t, nb) := by simpa using he
      rw [this]
      simp only []
      omega

/-- What holds after the relaxation loop finishes, relative to the state it
started from. -/
structure RelaxPost (g : Graph) (starts ends : List String) (current : String) (k : Nat)
    (es : List (String × Nat)) (dist : String → Option Nat)
    (prev : String → Option String) (queue : List (Nat × String))
    (r : (String → Option Nat) × (String → Option String) × List (Nat × String)) : Prop where
  inv : RelaxInv g starts ends current k r.1 r.2.1 r.2.2
  settled : ∀ e ∈ es, ∃ dy, r.1 e.1 = some dy ∧ dy ≤ k + e.2
  mono : ∀ v dv, dist v = some dv → ∃ dv', r.1 v = some dv' ∧ dv' ≤ dv
  cases : ∀ v, (r.1 v = dist v ∧ r.2.1 v = prev v ∧
      (∀ kk, (kk, v) ∈ r.2.2 ↔ (kk, v) ∈ queue)) ∨
    (∃ dv', r.1 v = some dv' ∧ k ≤ dv' ∧ (dv', v) ∈ r.2.2 ∧
      (∀ dv0, dist v = some dv0 → k < dv0))
  qlen : r.2.2.length ≤ queue.length + es.length
  qsub : ∀ e ∈ queue, e ∈ r.2.2

theorem dijRelax_inv {g : Graph} {starts ends : List String} {current : String} {k : Nat}
    (hclosed : ∀ x e, e ∈ edgesOf g x → e.1 ∈ nodeKeys g) :
    ∀ (es : List (String × Nat)) (dist : String → Option Nat)
      (prev : String → Option String) (queue : List (Nat × String)),
    (∀ e ∈ es, e ∈ edgesOf g current) →
    RelaxInv g starts ends current k dist prev queue →
    RelaxPost g starts ends current k es dist prev queue
      (dijRelax k current (dist, prev, queue) es) := by
  intro es
  induction es with
  | nil =>
    intro dist prev queue _ inv
    refine ⟨inv, ?_, ?_, ?_, ?_, ?_⟩
    · intro e he; simp at he
    · intro v dv hv; exact ⟨dv, hv, Nat.le_refl dv⟩
    · intro v; exact Or.inl ⟨rfl, rfl, fun kk => Iff.rfl⟩
    · simp [dijRelax]
    · intro e he; exact he
  | cons e0 es ih =>
    intro dist prev queue hsub inv
    obtain ⟨nb, t⟩ := e0
    have hsub' : ∀ e ∈ es, e ∈ edgesOf g current :=
      fun e he => hsub e (List.mem_cons_of_mem _ he)
    have hedge : (nb, t) ∈ edgesOf g current := hsub _ (List.mem_cons_self _ _)
    by_cases hlt : ltInf (k + t) (dist nb) = true
    · -- update step
      obtain ⟨hnbc, inv1⟩ := relax_step hedge hclosed inv hlt
      have hlt' : ∀ dnb, dist nb = some dnb → k + t < dnb := by
        intro dnb hdnb
        rw [hdnb, ltInf] at hlt
        simpa using hlt
      have hred : dijRelax k current (dist, prev, queue) ((nb, t) :: es) =
          dijRelax k current
            ((fun x => if x = nb then some (k + t) else dist x),
             (fun x => if x = nb then some current else prev x),
             queue ++ [(k + t, nb)]) es := by
        rw [dijRelax, if_pos hlt]
      rw [hred]
      obtain ⟨inv', hsettled, hmono, hcases, hqlen, hqsub⟩ :=
        ih (fun x => if x = nb then some (k + t) else dist x)
          (fun x => if x = nb then some current else prev x)
          (queue ++ [(k + t, nb)]) hsub' inv1
      refine ⟨inv', ?_, ?_, ?_, ?_, ?_⟩
      · intro e he
        rcases List.mem_cons.mp he with rfl | he
        · obtain ⟨dy, hdy, hdyle⟩ := hmono nb (k + t) (by simp)
          exact ⟨dy, hdy, hdyle⟩
        · exact hsettled e he
      · intro v dv hv
        by_cases hvnb : v = nb
        · subst hvnb
          have hk := hlt' dv hv
          obtain ⟨dv', hdv', hle⟩ := hmono v (k + t) (by simp)
          exact ⟨dv', hdv', by omega⟩
        · obtain ⟨dv', hdv', hle⟩ := hmono v dv (by simp [hvnb, hv])
          exact ⟨dv', hdv', hle⟩
      · intro v
        rcases hcases v with ⟨h1, h2, h3⟩ | ⟨dv', h1, h2, h3, h4⟩
        · by_cases hvnb : v = nb
          · subst hvnb
            refine Or.inr ⟨k + t, ?_, by omega, ?_, ?_⟩
            · rw [h1]; simp
            · exact (h3 (k + t)).mpr (List.mem_append_right _ (List.mem_singleton_self _))
            · intro dv0 hdv0
              have := hlt' dv0 hdv0
              omega
          · refine Or.inl ⟨?_, ?_, ?_⟩
            · rw [h1]; simp [hvnb]
            · rw [h2]; simp [hvnb]
            · intro kk
              rw [h3 kk]
              constructor
              · intro hmem
                rcases List.mem_append.mp hmem with hmem | hmem
                · exact hmem
                · exfalso
                  have : (kk, v) = (k + t, nb) := by simpa using hmem
                  exact hvnb (congrArg Prod.snd this)
              · exact fun hmem => List.mem_append_left _ hmem
        · by_cases hvnb : v = nb
          · subst hvnb
            refine Or.inr ⟨dv', h1, h2, h3, ?_⟩
            intro dv0 hdv0
            have := hlt' dv0 hdv0
            omega
          · refine Or.inr ⟨dv', h1, h2, h3, ?_⟩
            intro dv0 hdv0
            exact h4 dv0 (by simp [hvnb, hdv0])
      · rw [List.length_cons]
        have : (queue ++ [(k + t, nb)]).length = queue.length + 1 := by simp
        omega
      · intro e he
        exact hqsub e (List.mem_append_left _ he)
    · -- no-update step
      have hred : dijRelax k current (dist, prev, queue) ((nb, t) :: es) =
          dijRelax k current (dist, prev, queue) es := by
        rw [dijRelax]
        rw [if_neg hlt]
      rw [hred]
      have hdnb : ∃ dnb, dist nb = some dnb ∧ dnb ≤ k + t := by
        cases hd : dist nb with
        | none => rw [hd, ltInf] at hlt; simp at hlt
        | some dnb =>
          rw [hd, ltInf] at hlt
          simp only [decide_eq_true_eq] at hlt
          exact ⟨dnb, rfl, by omega⟩
      obtain ⟨inv', hsettled, hmono, hcases, hqlen, hqsub⟩ := ih dist prev queue hsub' inv
      refine ⟨inv', ?_, hmono, hcases, by rw [List.length_cons]; omega, hqsub⟩
      intro e he
      rcases List.mem_cons.mp he with rfl | he
      · obtain ⟨dnb, hd, hle⟩ := hdnb
        obtain ⟨dv', hdv', hle'⟩ := hmono nb dnb hd
        exact ⟨dv', hdv', Nat.le_trans hle' hle⟩
      · exact hsettled e he

/-! ### The Dijkstra termination measure -/

/-- Weight of a node in the termination measure: zero once it has a
distance and no matching fresh entry remains in the queue. -/
def doneWeight (g : Graph) (dist : String → Option Nat) (queue : List (Nat × String))
    (u : String) : Nat :=
  match dist u with
  | none => 1 + (edgesOf g u).length
  | some du => if (du, u) ∈ queue then 1 + (edgesOf g u).length else 0

def dijMeasure (g : Graph) (dist : String → Option Nat)
    (queue : List (Nat × String)) : Nat :=
  queue.length + (((nodeKeys g).dedup).map (doneWeight g dist queue)).sum

theorem doneWeight_le (g : Graph) (dist : String → Option Nat)
    (queue : List (Nat × String)) (u : String) :
    doneWeight g dist queue u ≤ 1 + (edgesOf g u).length := by
  rw [doneWeight]
  cases dist u with
  | none => exact Nat.le_refl _
  | some du =>
    by_cases h : (du, u) ∈ queue
    · simp [h]
    · simp [h]

theorem sum_map_congr {L : List String} {f f' : String → Nat}
    (h : ∀ y ∈ L, f' y = f y) : (L.map f').sum = (L.map f).sum := by
  induction L with
  | nil => rfl
  | cons a t ih =>
    simp only [List.map_cons, List.sum_cons]
    rw [h a (List.mem_cons_self a t), ih (fun y hy => h y (List.mem_cons_of_mem a hy))]

theorem sum_map_update {L : List String} (hnd : L.Nodup) {f f' : String → Nat} {x : String}
    (hx : x ∈ L) (hagree : ∀ y ∈ L, y ≠ x → f' y = f y) :
    (L.map f').sum + f x = (L.map f).sum + f' x := by
  induction L with
  | nil => simp at hx
  | cons a t ih =>
    simp only [List.map_cons, List.sum_cons]
    by_cases hax : a = x
    · subst hax
      have hnotmem : a ∉ t := (List.nodup_cons.mp hnd).1
      have : (t.map f').sum = (t.map f).sum := by
        apply sum_map_congr
        intro y hy
        exact hagree y (List.mem_cons_of_mem a hy) (fun hc => hnotmem (hc ▸ hy))
      omega
    · have hxt : x ∈ t := by
        rcases List.mem_cons.mp hx with hc | hc
        · exact absurd hc.symm hax
        · exact hc
      have hfa : f' a = f a := hagree a (List.mem_cons_self a t) hax
      have := ih (List.nodup_cons.mp hnd).2 hxt
        (fun y hy hyx => hagree y (List.mem_cons_of_mem a hy) hyx)
      omega

theorem sum_map_le {L : List String} {f f' : String → Nat}
    (h : ∀ y ∈ L, f' y ≤ f y) : (L.map f').sum ≤ (L.map f).sum := by
  induction L with
  | nil => exact Nat.le_refl _
  | cons a t ih =>
    simp only [List.map_cons, List.sum_cons]
    have h1 := h a (List.mem_cons_self a t)
    have h2 := ih (fun y hy => h y (List.mem_cons_of_mem a hy))
    omega

/-- What the Dijkstra result promises: `none` only when no costed
seed-to-end walk exists; a returned pair is a seed-to-end walk whose cost
it realizes, minimal among all such walks. -/
def DijGood (g : Graph) (starts ends : List String)
    (res : Option (List String × Nat)) : Prop :=
  match res with
  | none => ∀ q c, CWalk g q c → (∃ s ∈ starts, q.head? = some s) →
      (∃ e ∈ ends, q.getLast? = some e) → False
  | some pc => CWalk g pc.1 pc.2 ∧ (∃ s ∈ starts, pc.1.head? = some s) ∧
      (∃ e ∈ ends, pc.1.getLast? = some e) ∧
      ∀ q c, CWalk g q c → (∃ s ∈ starts, q.head? = some s) →
        (∃ e ∈ ends, q.getLast? = some e) → pc.2 ≤ c

theorem dijLoop_master (g : Graph) (starts ends : List String)
    (hclosed : ∀ x e, e ∈ edgesOf g x → e.1 ∈ nodeKeys g ∧ 1 ≤ e.2) :
    ∀ (fuel : Nat) (dist : String → Option Nat) (prev : String → Option String)
      (queue : List (Nat × String)),
    DijInv g starts ends dist prev queue →
    dijMeasure g dist queue < fuel →
    ∃ res, dijLoop g ends fuel dist prev queue = some res ∧ DijGood g starts ends res := by
  intro fuel
  induction fuel with
  | zero => intro _ _ _ _ h; omega
  | succ fuel ih =>
    intro dist prev queue inv hfuel
    cases hpop : popMin queue with
    | none =>
      have hqnil : queue = [] := popMin_none.mp hpop
      subst hqnil
      refine ⟨none, by simp [dijLoop, hpop], ?_⟩
      rintro q c hc ⟨s, hs, hhd⟩ ⟨e, he, hlast⟩
      have hallset : ∀ v dv, dist v = some dv → Settled g dist v dv := by
        intro v dv hv
        rcases inv.q5 v dv hv with hq | hset
        · simp at hq
        · exact hset
      have hde : ∃ de, dist e = some de := by
        refine cwalk_dist_total hallset q c hc ?_ e hlast
        intro s' hs'
        rw [hhd] at hs'
        injection hs' with hs'
        exact ⟨0, hs' ▸ inv.q1 s hs⟩
      obtain ⟨de, hde⟩ := hde
      have := inv.q6 e he de hde
      simp at this
    | some pr =>
      obtain ⟨⟨k, current⟩, rest⟩ := pr
      obtain ⟨hperm, hmin0⟩ := popMin_spec hpop
      have hmin : ∀ e ∈ queue, k ≤ e.1 := hmin0
      have hcurq : (k, current) ∈ queue := hperm.mem_iff.mpr (List.mem_cons_self _ _)
      obtain ⟨dc, hdc0, hdck0⟩ := inv.q4 (k, current) hcurq
      have hdc : dist current = some dc := hdc0
      have hdck : dc ≤ k := hdck0
      have hkeyk : ∀ e ∈ rest, k ≤ e.1 :=
        fun e he => hmin e (hperm.mem_iff.mpr (List.mem_cons_of_mem _ he))
      have hmemq : ∀ e, e ∈ queue ↔ (e = (k, current) ∨ e ∈ rest) := by
        intro e
        rw [hperm.mem_iff, List.mem_cons]
      have hnodup' : (k, current) ∉ rest ∧ rest.Nodup := by
        have hn := inv.q8.perm hperm
        exact ⟨(List.nodup_cons.mp hn).1, (List.nodup_cons.mp hn).2⟩
      have hsettled_lt : ∀ x dx, dist x = some dx → dx < k → Settled g dist x dx := by
        intro x dx hx hlt
        rcases inv.q5 x dx hx with hq | hset
        · have := hmin (dx, x) hq
          simp only at this
          omega
        · exact hset
      by_cases hce : current ∈ ends
      · -- the first end candidate popped: return its path and distance
        have hdceq : dc = k := by
          by_contra hne
          have := hmin (dc, current) (inv.q6 current hce dc hdc)
          simp only at this
          omega
        obtain ⟨p, c, hpch, hcw, hhead, hlast, hcost, hnodup, hmemp⟩ :=
          prev_chain_exists (fun x e he => (hclosed x e he).2) inv.q2 inv.q3 dc current hdc
        have hpkeys : ∀ x ∈ p, x ∈ nodeKeys g := by
          intro x hx
          obtain ⟨dx, hdx, _⟩ := hmemp x hx
          exact inv.q0 x dx hdx
        have hplen : p.length ≤ (nodeKeys g).length := nodup_subset_length hnodup hpkeys
        have hctr : chainToRoot prev ((nodeKeys g).length + 1) current = p.reverse :=
          pchain_chainToRoot hpch _ (by omega)
        have hcut := dij_cut inv.q1 hsettled_lt
        have hck : c = k := by
          rcases hcut p c current hcw hhead hlast with h | ⟨dv, hdv, hdvc⟩
          · omega
          · rw [hdc] at hdv
            injection hdv with hdv
            omega
        refine ⟨some (p, k), ?_, ?_⟩
        · simp only [dijLoop, hpop, if_pos hce, hctr, List.reverse_reverse]
        · refine ⟨?_, hhead, ⟨current, hce, hlast⟩, ?_⟩
          · show CWalk g p k
            rw [← hck]
            exact hcw
          · rintro q c' hc' hhd' ⟨e, he, hlast'⟩
            show k ≤ c'
            rcases hcut q c' e hc' hhd' hlast' with h | ⟨de, hde, hdec⟩
            · exact h
            · have := hmin (de, e) (inv.q6 e he de hde)
              simp only at this
              omega
      · by_cases hfresh : dc = k
        · -- fresh pop: relax all edges of current
          subst hfresh
          have rinv : RelaxInv g starts ends current dc dist prev rest := by
            constructor
            · exact inv.q0
            · exact inv.q1
            · exact inv.q2
            · exact inv.q3
            · exact fun e he => inv.q4 e (hperm.mem_iff.mpr (List.mem_cons_of_mem _ he))
            · intro en hen de hde
              have := inv.q6 en hen de hde
              rcases (hmemq (de, en)).mp this with heq | hmem
              · exfalso
                have h2 := congrArg Prod.snd heq
                simp only at h2
                exact hce (h2 ▸ hen)
              · exact hmem
            · exact hnodup'.2
            · intro v dv hv hvc
              rcases inv.q5 v dv hv with hq | hset
              · rcases (hmemq (dv, v)).mp hq with heq | hmem
                · exfalso
                  have h2 := congrArg Prod.snd heq
                  simp only at h2
                  exact hvc h2
                · exact Or.inl hmem
              · exact Or.inr hset
            · exact hdc
            · exact hnodup'.1
            · intro v dv hv hnot
              by_cases hq : (dv, v) ∈ queue
              · rcases (hmemq (dv, v)).mp hq with heq | hmem
                · have h1 := congrArg Prod.fst heq
                  simp only at h1
                  omega
                · exact absurd hmem hnot
              · have := inv.q7 v dv hv hq (dc, current) hcurq
                simpa using this
            · exact hkeyk
          have post := dijRelax_inv (fun x e he => (hclosed x e he).1)
            (edgesOf g current) dist prev rest (fun e he => he) rinv
          set r := dijRelax dc current (dist, prev, rest) (edgesOf g current) with hrdef
          have inv' : DijInv g starts ends r.1 r.2.1 r.2.2 := by
            constructor
            · exact post.inv.q0
            · exact post.inv.q1
            · exact post.inv.q2
            · exact post.inv.q3
            · exact post.inv.q4
            · intro v dv hv
              by_cases hvc : v = current
              · subst hvc
                right
                have hk : dv = dc := by
                  rw [post.inv.rcur] at hv
                  injection hv with h
                  exact h.symm
                subst hk
                intro e he
                exact post.settled e he
              · exact post.inv.r5 v dv hv hvc
            · exact post.inv.q6
            · intro v dv hv hnot e he
              have h1 := post.inv.rkey v dv hv hnot
              have h2 := post.inv.rqk e he
              omega
            · exact post.inv.q8
          have hmeas : dijMeasure g r.1 r.2.2 < fuel := by
            have hcur_keys : current ∈ (nodeKeys g).dedup :=
              List.mem_dedup.mpr (inv.q0 current dc hdc)
            have hsum_mid : (((nodeKeys g).dedup).map (doneWeight g dist rest)).sum +
                doneWeight g dist queue current =
                (((nodeKeys g).dedup).map (doneWeight g dist queue)).sum +
                doneWeight g dist rest current := by
              refine sum_map_update (List.nodup_dedup _) hcur_keys ?_
              intro u hu huc
              cases hdu : dist u with
              | none => simp [doneWeight, hdu]
              | some du =>
                have hiff : (du, u) ∈ rest ↔ (du, u) ∈ queue := by
                  constructor
                  · intro h
                    exact hperm.mem_iff.mpr (List.mem_cons_of_mem _ h)
                  · intro h
                    rcases (hmemq (du, u)).mp h with heq | hmem
                    · exfalso
                      have h2 := congrArg Prod.snd heq
                      simp only at h2
                      exact huc h2
                    · exact hmem
                simp only [doneWeight, hdu]
                by_cases hm : (du, u) ∈ rest
                · rw [if_pos hm, if_pos (hiff.mp hm)]
                · rw [if_neg hm, if_neg (fun hc => hm (hiff.mpr hc))]
            have hw_pre : doneWeight g dist queue current = 1 + (edgesOf g current).length := by
              simp only [doneWeight, hdc]
              rw [if_pos hcurq]
            have hw_mid : doneWeight g dist rest current = 0 := by
              simp only [doneWeight, hdc]
              rw [if_neg hnodup'.1]
            have hsum_post : (((nodeKeys g).dedup).map (doneWeight g r.1 r.2.2)).sum =
                (((nodeKeys g).dedup).map (doneWeight g dist rest)).sum := by
              refine sum_map_congr ?_
              intro u hu
              by_cases huc : u = current
              · subst huc
                simp only [doneWeight, post.inv.rcur, hdc]
                rw [if_neg post.inv.rcurq, if_neg hnodup'.1]
              · rcases post.cases u with ⟨h1, h2, h3⟩ | ⟨dv', h1, h2, h3, h4⟩
                · cases hdu : dist u with
                  | none =>
                    have hdu' : r.1 u = none := h1.trans hdu
                    simp [doneWeight, hdu, hdu']
                  | some du =>
                    have hiff2 := h3 du
                    have hdu' : r.1 u = some du := h1 ▸ hdu
                    simp only [doneWeight, hdu, hdu']
                    by_cases hm : (du, u) ∈ rest
                    · rw [if_pos (hiff2.mpr hm), if_pos hm]
                    · rw [if_neg (fun hc => hm (hiff2.mp hc)), if_neg hm]
                · simp only [doneWeight, h1]
                  rw [if_pos h3]
                  cases hdu : dist u with
                  | none => simp [hdu]
                  | some du =>
                    have hmem : (du, u) ∈ rest := by
                      by_contra hnm
                      have hkey := rinv.rkey u du hdu hnm
                      have := h4 du hdu
                      omega
                    simp only [hdu]
                    rw [if_pos hmem]
            have hqlen : r.2.2.length ≤ rest.length + (edgesOf g current).length := post.qlen
            have hlen : queue.length = rest.length + 1 := by
              have := hperm.length_eq
              simpa using this
            rw [dijMeasure] at hfuel ⊢
            rw [hsum_post]
            omega
          obtain ⟨res, hres, hgood⟩ := ih r.1 r.2.1 r.2.2 inv' hmeas
          refine ⟨res, ?_, hgood⟩
          simp only [dijLoop, hpop, if_neg hce]
          exact hres
        · -- stale pop: the relaxation loop is a no-op
          have hdclt : dc < k := by omega
          have hsetc : Settled g dist current dc := hsettled_lt current dc hdc hdclt
          have hnoop : dijRelax k current (dist, prev, rest) (edgesOf g current) =
              (dist, prev, rest) :=
            dijRelax_noop hdc (by omega) hsetc _ (fun e he => he)
          have inv' : DijInv g starts ends dist prev rest := by
            constructor
            · exact inv.q0
            · exact inv.q1
            · exact inv.q2
            · exact inv.q3
            · exact fun e he => inv.q4 e (hperm.mem_iff.mpr (List.mem_cons_of_mem _ he))
            · intro v dv hv
              rcases inv.q5 v dv hv with hq | hset
              · rcases (hmemq (dv, v)).mp hq with heq | hmem
                · exfalso
                  have h1 := congrArg Prod.fst heq
                  have h2 := congrArg Prod.snd heq
                  simp only at h1 h2
                  rw [h2] at hv
                  rw [hv] at hdc
                  injection hdc with hdc
                  omega
                · exact Or.inl hmem
              · exact Or.inr hset
            · intro en hen de hde
              have := inv.q6 en hen de hde
              rcases (hmemq (de, en)).mp this with heq | hmem
              · exfalso
                have h2 := congrArg Prod.snd heq
                simp only at h2
                exact hce (h2 ▸ hen)
              · exact hmem
            · intro v dv hv hnot e he
              have hnq : (dv, v) ∉ queue := by
                intro hq
                rcases (hmemq (dv, v)).mp hq with heq | hmem
                · have h1 := congrArg Prod.fst heq
                  have h2 := congrArg Prod.snd heq
                  simp only at h1 h2
                  rw [h2] at hv
                  rw [hv] at hdc
                  injection hdc with hdc
                  omega
                · exact hnot hmem
              exact inv.q7 v dv hv hnq e (hperm.mem_iff.mpr (List.mem_cons_of_mem _ he))
            · exact hnodup'.2
          have hmeas : dijMeasure g dist rest < fuel := by
            have hsum : (((nodeKeys g).dedup).map (doneWeight g dist rest)).sum =
                (((nodeKeys g).dedup).map (doneWeight g dist queue)).sum := by
              refine sum_map_congr ?_
              intro u hu
              cases hdu : dist u with
              | none => simp [doneWeight, hdu]
              | some du =>
                have hiff : (du, u) ∈ rest ↔ (du, u) ∈ queue := by
                  constructor
                  · intro h
                    exact hperm.mem_iff.mpr (List.mem_cons_of_mem _ h)
                  · intro h
                    rcases (hmemq (du, u)).mp h with heq | hmem
                    · exfalso
                      have h1 := congrArg Prod.fst heq
                      have h2 := congrArg Prod.snd heq
                      simp only at h1 h2
                      rw [h2] at hdu
                      rw [hdu] at hdc
                      injection hdc with hdc
                      omega
                    · exact hmem
                simp only [doneWeight, hdu]
                by_cases hm : (du, u) ∈ rest
                · rw [if_pos hm, if_pos (hiff.mp hm)]
                · rw [if_neg hm, if_neg (fun hc => hm (hiff.mpr hc))]
            have hlen : queue.length = rest.length + 1 := by
              have := hperm.length_eq
              simpa using this
            rw [dijMeasure] at hfuel ⊢
            rw [hsum]
            omega
          obtain ⟨res, hres, hgood⟩ := ih dist prev rest inv' hmeas
          refine ⟨res, ?_, hgood⟩
          simp only [dijLoop, hpop, if_neg hce, hnoop]
          exact hres

theorem dij_init_inv (g : Graph) (starts ends : List String)
    (hsub : ∀ s ∈ starts, s ∈ nodeKeys g) (hnd : starts.Nodup) :
    DijInv g starts ends
      (fun v => if v ∈ starts then some 0 else none)
      (fun _ => none)
      (starts.map (fun s => (0, s))) := by
  refine ⟨?_, ?_, ?_, ?_, ?_, ?_, ?_, ?_, ?_⟩
  · intro v dv hv
    by_cases h : v ∈ starts
    · exact hsub v h
    · simp only [if_neg h] at hv
      exact Option.noConfusion hv
  · intro s hs
    simp only [if_pos hs]
  · intro v u h
    exact Option.noConfusion h
  · intro v dv hv hp
    by_cases h : v ∈ starts
    · exact h
    · simp only [if_neg h] at hv
      exact Option.noConfusion hv
  · intro e he
    obtain ⟨s, hs, rfl⟩ := List.mem_map.mp he
    exact ⟨0, by simp only [if_pos hs], Nat.le_refl 0⟩
  · intro v dv hv
    by_cases h : v ∈ starts
    · simp only [if_pos h] at hv
      injection hv with hv
      exact Or.inl (hv ▸ List.mem_map.mpr ⟨v, h, rfl⟩)
    · simp only [if_neg h] at hv
      exact Option.noConfusion hv
  · intro en hen de hde
    by_cases h : en ∈ starts
    · simp only [if_pos h] at hde
      injection hde with hde
      exact hde ▸ List.mem_map.mpr ⟨en, h, rfl⟩
    · simp only [if_neg h] at hde
      exact Option.noConfusion hde
  · intro v dv hv hnot
    exfalso
    by_cases h : v ∈ starts
    · simp only [if_pos h] at hv
      injection hv with hv
      exact hnot (hv ▸ List.mem_map.mpr ⟨v, h, rfl⟩)
    · simp only [if_neg h] at hv
      exact Option.noConfusion hv
  · exact hnd.map (fun a b h => congrArg Prod.snd h)

theorem dij_init_measure (g : Graph) (starts : List String) :
    dijMeasure g (fun v => if v ∈ starts then some 0 else none)
      (starts.map (fun s => (0, s))) < dijFuel g starts := by
  rw [dijMeasure, dijFuel]
  have h1 : (starts.map (fun s => (0, s))).length = starts.length :=
    List.length_map _ _
  have h2 : (((nodeKeys g).dedup).map (doneWeight g
        (fun v => if v ∈ starts then some 0 else none)
        (starts.map (fun s => (0, s))))).sum ≤
      (((nodeKeys g).dedup).map (fun u => 1 + (edgesOf g u).length)).sum :=
    sum_map_le (fun y hy => doneWeight_le g _ _ y)
  omega

theorem find_fastest_path_spec (g : Graph) (start_name end_name : String)
    (hnd : (nodeKeys g).Nodup)
    (hclosed : ∀ x e, e ∈ edgesOf g x → e.1 ∈ nodeKeys g ∧ 1 ≤ e.2) :
    DijGood g (candidate_ids g start_name) (candidate_ids g end_name)
      (find_fastest_path g start_name end_name) := by
  have hseeds : (candidate_ids g start_name).Nodup := List.Nodup.filter _ hnd
  have hsub : ∀ s ∈ candidate_ids g start_name, s ∈ nodeKeys g :=
    fun s hs => (List.mem_filter.mp hs).1
  have inv := dij_init_inv g (candidate_ids g start_name) (candidate_ids g end_name)
    hsub hseeds
  obtain ⟨res, hres, hgood⟩ := dijLoop_master g (candidate_ids g start_name)
    (candidate_ids g end_name) hclosed (dijFuel g (candidate_ids g start_name))
    (fun v => if v ∈ candidate_ids g start_name then some 0 else none)
    (fun _ => none)
    ((candidate_ids g start_name).map (fun s => (0, s)))
    inv (dij_init_measure g (candidate_ids g start_name))
  have hffp : find_fastest_path g start_name end_name = res := by
    rw [show find_fastest_path g start_name end_name =
      (dijLoop g (candidate_ids g end_name) (dijFuel g (candidate_ids g start_name))
        (fun v => if v ∈ candidate_ids g start_name then some 0 else none)
        (fun _ => none)
        ((candidate_ids g start_name).map (fun s => (0, s)))).getD none from rfl, hres]
    rfl
  rw [hffp]
  exact hgood

/-- C2.  A (path, cost) pair returned by `find_fastest_path` on a built
graph is a start-to-end walk whose traversed edge weights sum to exactly
the returned cost, and no walk from any start candidate to any end
candidate realizes a strictly smaller weight sum. -/
theorem claim_C2 (rows : List (String × String)) (ws : Nat → Nat)
    (start_name end_name : String) (p : List String) (c : Nat)
    (h : find_fastest_path (build_graph rows ws) start_name end_name = some (p, c)) :
    CWalk (build_graph rows ws) p c ∧
    (∃ s ∈ candidate_ids (build_graph rows ws) start_name, p.head? = some s) ∧
    (∃ e ∈ candidate_ids (build_graph rows ws) end_name, p.getLast? = some e) ∧
    ∀ q c', CWalk (build_graph rows ws) q c' →
      (∃ s ∈ candidate_ids (build_graph rows ws) start_name, q.head? = some s) →
      (∃ e ∈ candidate_ids (build_graph rows ws) end_name, q.getLast? = some e) →
      c ≤ c' := by
  have hgood := find_fastest_path_spec (build_graph rows ws) start_name end_name
    (build_graph_keys_nodup rows ws)
    (fun x e he => ⟨(build_graph_closed rows ws x e he).1, by
      have := (build_graph_closed rows ws x e he).2.1
      omega⟩)
  rw [h] at hgood
  exact hgood

/-- C6.  When no walk joins a start candidate to an end candidate (in
particular when either candidate set is empty), `find_shortest_path`
returns `none` and `find_fastest_path` returns `none` (the `(None, inf)`
return); both are total functions, so no error is raised. -/
theorem claim_C6 (rows : List (String × String)) (ws : Nat → Nat)
    (start_name end_name : String)
    (hno : ∀ q, Walk (build_graph rows ws) q →
      (∃ s ∈ candidate_ids (build_graph rows ws) start_name, q.head? = some s) →
      (∃ e ∈ candidate_ids (build_graph rows ws) end_name, q.getLast? = some e) →
      False) :
    find_shortest_path (build_graph rows ws) start_name end_name = none ∧
    find_fastest_path (build_graph rows ws) start_name end_name = none := by
  constructor
  · cases hres : find_shortest_path (build_graph rows ws) start_name end_name with
    | none => rfl
    | some p =>
      exfalso
      have hgood := find_shortest_path_spec (build_graph rows ws) start_name end_name
        (build_graph_keys_nodup rows ws)
      rw [hres] at hgood
      exact hno p hgood.1 hgood.2.1 hgood.2.2.1
  · cases hres : find_fastest_path (build_graph rows ws) start_name end_name with
    | none => rfl
    | some pc =>
      exfalso
      have hgood := find_fastest_path_spec (build_graph rows ws) start_name end_name
        (build_graph_keys_nodup rows ws)
        (fun x e he => ⟨(build_graph_closed rows ws x e he).1, by
          have := (build_graph_closed rows ws x e he).2.1
          omega⟩)
      rw [hres] at hgood
      exact hno pc.1 (cwalk_to_walk hgood.1) hgood.2.1 hgood.2.2.1

/-- C8.  If some node is both a start candidate and an end candidate,
`find_shortest_path` returns a single-node path and `find_fastest_path`
returns a single-node path with total cost 0. -/
theorem claim_C8 (rows : List (String × String)) (ws : Nat → Nat)
    (start_name end_name : String) (v : String)
    (hs : v ∈ candidate_ids (build_graph rows ws) start_name)
    (he : v ∈ candidate_ids (build_graph rows ws) end_name) :
    (∃ p, find_shortest_path (build_graph rows ws) start_name end_name = some p ∧
      p.length = 1) ∧
    (∃ p, find_fastest_path (build_graph rows ws) start_name end_name = some (p, 0) ∧
      p.length = 1) := by
  have hpos : ∀ x e, e ∈ edgesOf (build_graph rows ws) x → 1 ≤ e.2 := by
    intro x e hxe
    have := (build_graph_closed rows ws x e hxe).2.1
    omega
  constructor
  · have hgood := find_shortest_path_spec (build_graph rows ws) start_name end_name
      (build_graph_keys_nodup rows ws)
    cases hres : find_shortest_path (build_graph rows ws) start_name end_name with
    | none =>
      exfalso
      rw [hres] at hgood
      exact hgood [v] (walk_singleton _ v) ⟨v, hs, rfl⟩ ⟨v, he, rfl⟩
    | some p =>
      rw [hres] at hgood
      refine ⟨p, rfl, ?_⟩
      have hle := hgood.2.2.2 [v] (walk_singleton _ v) ⟨v, hs, rfl⟩ ⟨v, he, rfl⟩
      have hpos' := walk_length_pos hgood.1
      simp only [List.length_singleton] at hle
      omega
  · have hgood := find_fastest_path_spec (build_graph rows ws) start_name end_name
      (build_graph_keys_nodup rows ws)
      (fun x e hxe => ⟨(build_graph_closed rows ws x e hxe).1, hpos x e hxe⟩)
    cases hres : find_fastest_path (build_graph rows ws) start_name end_name with
    | none =>
      exfalso
      rw [hres] at hgood
      exact hgood [v] 0 (CWalk.single v) ⟨v, hs, rfl⟩ ⟨v, he, rfl⟩
    | some pc =>
      rw [hres] at hgood
      have hle := hgood.2.2.2 [v] 0 (CWalk.single v) ⟨v, hs, rfl⟩ ⟨v, he, rfl⟩
      have hc0 : pc.2 = 0 := by omega
      refine ⟨pc.1, ?_, ?_⟩
      · rw [← hc0]
      · have hcw := hgood.1
        rw [hc0] at hcw
        exact cwalk_single_of_cost_zero hpos hcw

/-! ### Concrete witnesses -/

theorem claim_C1_witness :
    find_shortest_path (build_graph [("A","L1"),("B","L1")] (fun _ => 0)) "A" "B" =
      some ["A (L1)", "B (L1)"] ∧
    Walk (build_graph [("A","L1"),("B","L1")] (fun _ => 0)) ["A (L1)", "B (L1)"] :=
  ⟨by decide, (claim_C1 [("A","L1"),("B","L1")] (fun _ => 0) "A" "B"
    ["A (L1)", "B (L1)"] (by decide)).1⟩

theorem claim_C2_witness :
    find_fastest_path (build_graph [("A","L1"),("B","L1")] (fun _ => 0)) "A" "B" =
      some (["A (L1)", "B (L1)"], 2) ∧
    CWalk (build_graph [("A","L1"),("B","L1")] (fun _ => 0)) ["A (L1)", "B (L1)"] 2 :=
  ⟨by decide, (claim_C2 [("A","L1"),("B","L1")] (fun _ => 0) "A" "B"
    ["A (L1)", "B (L1)"] 2 (by decide)).1⟩

theorem claim_C3_witness :
    ("B (L1)", 2) ∈ edgesOf (build_graph [("A","L1"),("B","L1")] (fun _ => 0)) "A (L1)" ∧
    ("A (L1)", 2) ∈ edgesOf (build_graph [("A","L1"),("B","L1")] (fun _ => 0)) "B (L1)" :=
  ⟨by decide, claim_C3 [("A","L1"),("B","L1")] (fun _ => 0) "A (L1)" "B (L1)" 2 (by decide)⟩

theorem claim_C4_witness :
    (([("A","L1"),("B","L1")] : List (String × String)).Nodup ∧
      2 ≤ (rowsOfLine [("A","L1"),("B","L1")] "L1").length) ∧
    ((intraTagged [("A","L1"),("B","L1")]).filter
        (fun e => decide (e.1 = "L1"))).map (fun e => e.2) =
      linePairs [("A","L1"),("B","L1")] "L1" :=
  ⟨⟨by decide, by decide⟩,
    (claim_C4 [("A","L1"),("B","L1")] (fun _ => 0) "L1" (by decide) (by decide)).1⟩

theorem claim_C5_witness :
    ([("A","L1"),("B","L1")] : List (String × String)).Nodup ∧
    ((transferTagged [("A","L1"),("B","L1")]).filter
        (fun e => decide (e.1 = "A"))).map (fun e => e.2) =
      upairs (linesOfStation [("A","L1"),("B","L1")] "A") :=
  ⟨by decide, (claim_C5 [("A","L1"),("B","L1")] (fun _ => 0) "A" (by decide)).1⟩

theorem claim_C6_witness :
    find_shortest_path (build_graph [("A","L1"),("B","L1")] (fun _ => 0)) "A" "Z" = none ∧
    find_fastest_path (build_graph [("A","L1"),("B","L1")] (fun _ => 0)) "A" "Z" = none :=
  claim_C6 [("A","L1"),("B","L1")] (fun _ => 0) "A" "Z" (fun q hw hs he => by
    obtain ⟨e, he1, he2⟩ := he
    rw [show candidate_ids (build_graph [("A","L1"),("B","L1")] (fun _ => 0)) "Z" =
        ([] : List String) from by decide] at he1
    exact absurd he1 (List.not_mem_nil e))

theorem claim_C7_witness :
    ("A", "L1") ∈ ([("A","L1"),("B","L1")] : List (String × String)) ∧
    stationId "A" "L1" ∈ candidate_ids (build_graph [("A","L1"),("B","L1")] (fun _ => 0)) "A" :=
  ⟨by decide, ((claim_C7 [("A","L1"),("B","L1")] (fun _ => 0) "A" (stationId "A" "L1")).2
    "A" "L1" "A" "L1" (by decide) (by decide) List.prefix_rfl).1⟩

theorem claim_C8_witness :
    ("A (L1)" ∈ candidate_ids (build_graph [("A","L1"),("B","L1")] (fun _ => 0)) "A") ∧
    (∃ p, find_shortest_path (build_graph [("A","L1"),("B","L1")] (fun _ => 0)) "A" "A" =
        some p ∧ p.length = 1) ∧
    (∃ p, find_fastest_path (build_graph [("A","L1"),("B","L1")] (fun _ => 0)) "A" "A" =
        some (p, 0) ∧ p.length = 1) :=
  ⟨by decide,
    claim_C8 [("A","L1"),("B","L1")] (fun _ => 0) "A" "A" "A (L1)" (by decide) (by decide)⟩

theorem claim_C10_witness :
    2 ≤ ([("A","L1"),("A","L1")] : List (String × String)).count ("A", "L1") ∧
    ("L1", "A", "A") ∈ intraTagged [("A","L1"),("A","L1")] :=
  ⟨by decide, (claim_C10 [("A","L1"),("A","L1")] (fun _ => 0) "A" "L1" (by decide)).1⟩
